import Mathlib

/-! Illiterate Wizard: the specification editors and the application handlers.

A shallow embedding of the editing operations of the front end
(`SyntaxEditor.jsx`, `GrammarDesigner.jsx`, `SemanticsEditor.jsx`,
`BuiltinsEditor.jsx`, `LanguageConfig.jsx`).  Every handler is a function of
the props and of the component state it reads; what it passes to its change
callback is returned as an `Option` (`none` when the handler returns early
without calling the callback), next to the component state it leaves behind.

The asynchronous handlers of `App.jsx` (`handleSave`, `handleGenerate`,
`handleDownload`) are given as the list of effects they perform before their
`await` and the list they perform after it, for either outcome of the awaited
call of `services/api.js`.  A session runs the application through events:
edits, clicks (delivered only to a button that is rendered and enabled) and the
ends of the calls in flight.
-/

namespace IlliterateWizard

/-! ## JavaScript strings -/

/-- A JavaScript string, as the sequence of its characters.  The comma and every
white-space character are single UTF-16 code units, so `split(',')` and `trim` cut a
string at the same places whether it is read by code units or by characters. -/
abbrev JSString := List Char

/-- Code points of the ECMAScript `WhiteSpace` and `LineTerminator` productions:
the characters `String.prototype.trim` strips and `parseInt` skips. -/
def whiteSpaceCodes : List Nat :=
  [0x09, 0x0A, 0x0B, 0x0C, 0x0D, 0x20, 0xA0, 0x1680,
   0x2000, 0x2001, 0x2002, 0x2003, 0x2004, 0x2005, 0x2006, 0x2007, 0x2008, 0x2009, 0x200A,
   0x2028, 0x2029, 0x202F, 0x205F, 0x3000, 0xFEFF]

/-- Whether a character is white space for `trim`. -/
def isWhiteSpace (c : Char) : Bool := whiteSpaceCodes.contains c.toNat

/-- The method `String.prototype.trimStart`. -/
def trimStart (s : JSString) : JSString := s.dropWhile isWhiteSpace

/-- The method `String.prototype.trimEnd`. -/
def trimEnd (s : JSString) : JSString := (s.reverse.dropWhile isWhiteSpace).reverse

/-- The method `String.prototype.trim`. -/
def trim (s : JSString) : JSString := trimEnd (trimStart s)

/-- The method `String.prototype.split` for a one-character separator: the pieces
between the occurrences of `sep`; the empty string gives one empty piece. -/
def split (sep : Char) : JSString → List JSString
  | [] => [[]]
  | c :: cs =>
    if c = sep then [] :: split sep cs
    else
      match split sep cs with
      | [] => [[c]]
      | p :: ps => (c :: p) :: ps

/-- Truthiness of a string: every string but the empty one. -/
def truthy (s : JSString) : Bool := !s.isEmpty

/-! ## Numbers read by `parseInt` -/

/-- The values `parseInt` yields: `NaN`, or an integer. -/
inductive JSInt where
  | nan : JSInt
  | int (z : Int) : JSInt
  deriving DecidableEq, Repr

/-- Whether a parsed number is a finite integer (`Number.isInteger`). -/
def JSInt.isFiniteInteger : JSInt → Bool
  | .nan => false
  | .int _ => true

/-- The value of a character as a digit, up to radix 16. -/
def digitValue (c : Char) : Option Nat :=
  if 48 ≤ c.toNat ∧ c.toNat ≤ 57 then some (c.toNat - 48)
  else if 97 ≤ c.toNat ∧ c.toNat ≤ 102 then some (c.toNat - 87)
  else if 65 ≤ c.toNat ∧ c.toNat ≤ 70 then some (c.toNat - 55)
  else none

/-- Whether a character is a digit of radix `radix` (10 or 16). -/
def isRadixDigit (radix : Nat) (c : Char) : Bool :=
  match digitValue c with
  | some d => decide (d < radix)
  | none => false

/-- The integer written by a sequence of digits of radix `radix`. -/
def digitsValue (radix : Nat) (ds : JSString) : Nat :=
  ds.foldl (fun acc c => radix * acc + (digitValue c).getD 0) 0

/-- The global function `parseInt` with no radix argument: leading white space
is skipped, a sign is read, a `0x`/`0X` prefix selects radix 16, and the longest
prefix of digits is read; `NaN` when that prefix is empty.  The rounding of an
integer above `2^53` to a double is not modelled. -/
def parseInt (input : JSString) : JSInt :=
  let s := trimStart input
  let negative := s.head? == some '-'
  let s := if s.head? == some '-' ∨ s.head? == some '+' then s.tail else s
  let hex := s.take 2 == ['0', 'x'] || s.take 2 == ['0', 'X']
  let radix := if hex then 16 else 10
  let s := if hex then s.drop 2 else s
  let z := s.takeWhile (isRadixDigit radix)
  if z.isEmpty then JSInt.nan
  else if negative then JSInt.int (-(digitsValue radix z : Int))
  else JSInt.int (digitsValue radix z)

/-! ## Syntax editor: keywords, operators, syntax rules -/

/-- A keyword entry; also the shape of the `newKeyword` draft. -/
structure Keyword where
  word : JSString
  category : JSString
  description : JSString
  deriving DecidableEq, Repr

/-- The `newOperator` draft.  Its `precedence` is the text of the number field
(the initial number `0` reads as `"0"` under `parseInt`). -/
structure OperatorDraft where
  symbol : JSString
  precedence : JSString
  associativity : JSString
  operation_type : JSString
  implementation : JSString
  deriving DecidableEq, Repr

/-- An operator entry as stored in the specification. -/
structure Operator where
  symbol : JSString
  precedence : JSInt
  associativity : JSString
  operation_type : JSString
  implementation : JSString
  deriving DecidableEq, Repr

/-- The `newSyntaxRule` draft: `tokens` is the comma-separated text, and
`precedence` the text of the number field. -/
structure SyntaxRuleDraft where
  rule_type : JSString
  pattern : JSString
  tokens : JSString
  precedence : JSString
  associativity : JSString
  deriving DecidableEq, Repr

/-- A syntax rule as stored in the specification. -/
structure SyntaxRule where
  rule_type : JSString
  pattern : JSString
  tokens : List JSString
  precedence : JSInt
  associativity : JSString
  deriving DecidableEq, Repr

/-- The reset value of the `newKeyword` draft. -/
def emptyKeyword : Keyword := { word := [], category := [], description := [] }

/-- The reset value of the `newOperator` draft. -/
def emptyOperatorDraft : OperatorDraft :=
  { symbol := [], precedence := ['0'], associativity := "left".toList,
    operation_type := [], implementation := [] }

/-- The reset value of the `newSyntaxRule` draft. -/
def emptySyntaxRuleDraft : SyntaxRuleDraft :=
  { rule_type := "statement".toList, pattern := [], tokens := [], precedence := ['0'],
    associativity := "left".toList }

/-- The handler `addKeyword`: the list passed to `onKeywordsChange`, if any, and the
draft afterwards. -/
def addKeyword (keywords : List Keyword) (newKeyword : Keyword) :
    Option (List Keyword) × Keyword :=
  if !truthy newKeyword.word then (none, newKeyword)
  else (some (keywords ++ [newKeyword]), emptyKeyword)

/-- The handler `addOperator`: the list passed to `onOperatorsChange`, if any, and
the draft afterwards. -/
def addOperator (operators : List Operator) (newOperator : OperatorDraft) :
    Option (List Operator) × OperatorDraft :=
  if !truthy newOperator.symbol then (none, newOperator)
  else
    (some (operators ++
      [{ symbol := newOperator.symbol
         precedence := parseInt newOperator.precedence
         associativity := newOperator.associativity
         operation_type := newOperator.operation_type
         implementation := newOperator.implementation }]),
     emptyOperatorDraft)

/-- The expression `newSyntaxRule.tokens.split(',').map(t => t.trim()).filter(t => t)`. -/
def tokensArray (tokens : JSString) : List JSString :=
  ((split ',' tokens).map trim).filter truthy

/-- The handler `addSyntaxRule`: the list passed to `onSyntaxChange`, if any, and the
draft afterwards. -/
def addSyntaxRule (syntaxRules : List SyntaxRule) (newSyntaxRule : SyntaxRuleDraft) :
    Option (List SyntaxRule) × SyntaxRuleDraft :=
  if !truthy newSyntaxRule.pattern then (none, newSyntaxRule)
  else
    (some (syntaxRules ++
      [{ rule_type := newSyntaxRule.rule_type
         pattern := newSyntaxRule.pattern
         tokens := tokensArray newSyntaxRule.tokens
         precedence := parseInt newSyntaxRule.precedence
         associativity := newSyntaxRule.associativity }]),
     emptySyntaxRuleDraft)

/-- Removal by position, `xs.filter((_, i) => i !== index)`. -/
def removeByIndex {α : Type} (xs : List α) (index : Nat) : List α :=
  (xs.enum.filter (fun p => p.1 != index)).map Prod.snd

/-- One editing step on the keyword collection: a click on "Add Keyword" with the
draft then in the form, or a click on the remove button of the entry at `index`. -/
inductive KeywordOp where
  | add (newKeyword : Keyword) : KeywordOp
  | remove (index : Nat) : KeywordOp
  deriving DecidableEq, Repr

/-- The keyword collection after one editing step: the list given to
`onKeywordsChange` replaces it, and it stays as it is when the callback is not
called. -/
def KeywordOp.apply (keywords : List Keyword) : KeywordOp → List Keyword
  | .add newKeyword => (addKeyword keywords newKeyword).1.getD keywords
  | .remove index => removeByIndex keywords index

/-- The keyword collection reached from the empty one by a sequence of steps. -/
def runKeywordOps (ops : List KeywordOp) : List Keyword :=
  ops.foldl KeywordOp.apply []

/-! ## Semantics editor -/

/-- A semantic action; also the shape of the `newAction` draft (`returns` is
`null` or a type name). -/
structure SemanticAction where
  rule_name : JSString
  action_type : JSString
  action_code : JSString
  returns : Option JSString
  deriving DecidableEq, Repr

/-- The reset value of the `newAction` draft. -/
def emptyAction : SemanticAction :=
  { rule_name := [], action_type := "evaluate".toList, action_code := [], returns := none }

/-- The handler `addAction`: the list passed to `onChange`, if any, and the draft
afterwards. -/
def addAction (semanticActions : List SemanticAction) (newAction : SemanticAction) :
    Option (List SemanticAction) × SemanticAction :=
  if !truthy newAction.rule_name || !truthy newAction.action_code then (none, newAction)
  else (some (semanticActions ++ [newAction]), emptyAction)

/-! ## Built-ins editor -/

/-- A parameter of a built-in function. -/
structure Parameter where
  name : JSString
  type : JSString
  deriving DecidableEq, Repr

/-- A built-in function; also the shape of the `newFunction` draft. -/
structure BuiltinFunction where
  name : JSString
  parameters : List Parameter
  return_type : JSString
  implementation : JSString
  description : JSString
  deriving DecidableEq, Repr

/-- The reset value of the `newFunction` draft. -/
def emptyFunction : BuiltinFunction :=
  { name := [], parameters := [], return_type := "void".toList, implementation := [],
    description := [] }

/-- The handler `addFunction`: the list passed to `onChange`, if any, and the draft
afterwards. -/
def addFunction (builtinFunctions : List BuiltinFunction) (newFunction : BuiltinFunction) :
    Option (List BuiltinFunction) × BuiltinFunction :=
  if !truthy newFunction.name || !truthy newFunction.description then (none, newFunction)
  else (some (builtinFunctions ++ [newFunction]), emptyFunction)

/-! ## Grammar designer -/

/-- A coordinate of a node on the canvas. -/
abbrev Coord := Rat

/-- The decimal digit `d` as a character. -/
def digitChar (d : Nat) : Char := Char.ofNat (48 + d)

/-- The decimal digits of `n`, most significant first, computed with `fuel` steps. -/
def decimalDigits : Nat → Nat → JSString
  | 0, _ => []
  | fuel + 1, n =>
    if n < 10 then [digitChar n]
    else decimalDigits fuel (n / 10) ++ [digitChar (n % 10)]

/-- The string of a non-negative integer number, as a template literal renders it
(plain decimal digits, which is what `Number::toString` gives below `10^21`). -/
def numberToString (n : Nat) : JSString := decimalDigits (n + 1) n

/-- The template literal `node-${Date.now()}` for the clock reading `now`
(milliseconds since the epoch). -/
def nodeIdAt (now : Nat) : JSString := "node-".toList ++ numberToString now

/-- The `editingRule` draft of the grammar form. -/
structure EditingRule where
  name : JSString
  pattern : JSString
  description : JSString
  deriving DecidableEq, Repr

/-- A grammar rule as `addGrammarRule` builds it: the draft, the node id and the
canvas coordinates. -/
structure GrammarRule where
  name : JSString
  pattern : JSString
  description : JSString
  node_id : JSString
  x : Coord
  y : Coord
  deriving DecidableEq, Repr

/-- A node of the canvas: its id, its position and the two texts of its label. -/
structure FlowNode where
  id : JSString
  x : Coord
  y : Coord
  labelName : JSString
  labelPattern : JSString
  deriving DecidableEq, Repr

/-- The reset value of the `editingRule` draft. -/
def emptyEditingRule : EditingRule := { name := [], pattern := [], description := [] }

/-- What a handler of the grammar designer leaves behind: the list passed to
`onChange`, if any, the canvas nodes and the draft. -/
structure GrammarOutcome where
  changed : Option (List GrammarRule)
  nodes : List FlowNode
  editingRule : EditingRule
  deriving DecidableEq, Repr

/-- The handler `addGrammarRule`.  `now` is the value of `Date.now()`, and `rand1`,
`rand2` the two values of `Math.random()`, read during the call. -/
def addGrammarRule (grammarRules : List GrammarRule) (nodes : List FlowNode)
    (editingRule : EditingRule) (now : Nat) (rand1 rand2 : Coord) : GrammarOutcome :=
  if !truthy editingRule.name || !truthy editingRule.pattern then
    { changed := none, nodes := nodes, editingRule := editingRule }
  else
    let nodeId := nodeIdAt now
    let newRule : GrammarRule :=
      { name := editingRule.name
        pattern := editingRule.pattern
        description := editingRule.description
        node_id := nodeId
        x := rand1 * 400
        y := rand2 * 400 }
    let newNode : FlowNode :=
      { id := nodeId, x := newRule.x, y := newRule.y
        labelName := newRule.name, labelPattern := newRule.pattern }
    { changed := some (grammarRules ++ [newRule])
      nodes := nodes ++ [newNode]
      editingRule := emptyEditingRule }

/-- The handler `deleteRule`. -/
def deleteRule (grammarRules : List GrammarRule) (nodes : List FlowNode)
    (editingRule : EditingRule) (ruleId : JSString) : GrammarOutcome :=
  let updatedRules := grammarRules.filter (fun r => r.node_id != ruleId)
  let updatedNodes := nodes.filter (fun n => n.id != ruleId)
  { changed := some updatedRules, nodes := updatedNodes, editingRule := editingRule }

/-- One editing step of the grammar designer: a click on "Add Rule" with the draft
then in the form and the clock and random readings of that call, or a click on the
delete button of the rule with id `ruleId`. -/
inductive GrammarOp where
  | add (editingRule : EditingRule) (now : Nat) (rand1 rand2 : Coord) : GrammarOp
  | delete (ruleId : JSString) : GrammarOp
  deriving DecidableEq, Repr

/-- The grammar rule list and the canvas nodes of the designer. -/
structure GrammarState where
  grammarRules : List GrammarRule
  nodes : List FlowNode
  deriving DecidableEq, Repr

/-- The state after one editing step: the list given to `onChange` replaces
`grammarRules`, which stays as it is when the callback is not called. -/
def GrammarOp.apply (st : GrammarState) : GrammarOp → GrammarState
  | .add editingRule now rand1 rand2 =>
    let out := addGrammarRule st.grammarRules st.nodes editingRule now rand1 rand2
    { grammarRules := out.changed.getD st.grammarRules, nodes := out.nodes }
  | .delete ruleId =>
    let out := deleteRule st.grammarRules st.nodes emptyEditingRule ruleId
    { grammarRules := out.changed.getD st.grammarRules, nodes := out.nodes }

/-- The state reached from the empty designer by a sequence of steps. -/
def runGrammarOps (ops : List GrammarOp) : GrammarState :=
  ops.foldl GrammarOp.apply { grammarRules := [], nodes := [] }

/-- The clock reading of a step that appends a rule (an accepted add), if it is one. -/
def GrammarOp.assignedAt : GrammarOp → Option Nat
  | .add editingRule now _ _ =>
    if !truthy editingRule.name || !truthy editingRule.pattern then none else some now
  | .delete _ => none

/-! ## Language configuration -/

/-- The comment markers of a specification. -/
structure CommentSyntax where
  single_line : JSString
  multi_line_start : JSString
  multi_line_end : JSString
  deriving DecidableEq, Repr

/-- The specification object held in `languageSpec`. -/
structure LanguageSpec where
  name : JSString
  version : JSString
  description : JSString
  language_type : JSString
  grammar_rules : List GrammarRule
  syntax_rules : List SyntaxRule
  semantic_actions : List SemanticAction
  keywords : List Keyword
  operators : List Operator
  builtin_functions : List BuiltinFunction
  data_types : List JSString
  target_language : JSString
  file_extension : JSString
  comment_syntax : CommentSyntax
  deriving DecidableEq, Repr

/-- The property names of a specification object. -/
inductive SpecField where
  | name | version | description | language_type
  | grammar_rules | syntax_rules | semantic_actions | keywords | operators
  | builtin_functions | data_types | target_language | file_extension
  | comment_syntax
  deriving DecidableEq, Repr

/-- The type of the values a property holds. -/
abbrev SpecField.Value : SpecField → Type
  | .name => JSString
  | .version => JSString
  | .description => JSString
  | .language_type => JSString
  | .grammar_rules => List GrammarRule
  | .syntax_rules => List SyntaxRule
  | .semantic_actions => List SemanticAction
  | .keywords => List Keyword
  | .operators => List Operator
  | .builtin_functions => List BuiltinFunction
  | .data_types => List JSString
  | .target_language => JSString
  | .file_extension => JSString
  | SpecField.comment_syntax => CommentSyntax

/-- Property access `spec[field]`. -/
def LanguageSpec.get (spec : LanguageSpec) : (field : SpecField) → field.Value
  | .name => spec.name
  | .version => spec.version
  | .description => spec.description
  | .language_type => spec.language_type
  | .grammar_rules => spec.grammar_rules
  | .syntax_rules => spec.syntax_rules
  | .semantic_actions => spec.semantic_actions
  | .keywords => spec.keywords
  | .operators => spec.operators
  | .builtin_functions => spec.builtin_functions
  | .data_types => spec.data_types
  | .target_language => spec.target_language
  | .file_extension => spec.file_extension
  | SpecField.comment_syntax => spec.comment_syntax

/-- The handler `handleChange` of `LanguageConfig`: the object
`{ ...spec, [field]: value }` passed to `onChange`. -/
def handleChange (spec : LanguageSpec) : (field : SpecField) → field.Value → LanguageSpec
  | .name, value => { spec with name := value }
  | .version, value => { spec with version := value }
  | .description, value => { spec with description := value }
  | .language_type, value => { spec with language_type := value }
  | .grammar_rules, value => { spec with grammar_rules := value }
  | .syntax_rules, value => { spec with syntax_rules := value }
  | .semantic_actions, value => { spec with semantic_actions := value }
  | .keywords, value => { spec with keywords := value }
  | .operators, value => { spec with operators := value }
  | .builtin_functions, value => { spec with builtin_functions := value }
  | .data_types, value => { spec with data_types := value }
  | .target_language, value => { spec with target_language := value }
  | .file_extension, value => { spec with file_extension := value }
  | SpecField.comment_syntax, value => { spec with comment_syntax := value }

/-! ## The specification's wording, for comparison with the handlers -/

/-- Following the specification's words ("trimming white space from each piece"):
`t` is the piece `p` without the white space at its two ends, that is, `p` is `t`
between two runs of white space and `t` neither starts nor ends with white space. -/
def IsTrimOf (t p : JSString) : Prop :=
  (∃ l r, p = l ++ t ++ r ∧ (∀ c ∈ l, isWhiteSpace c = true) ∧
    (∀ c ∈ r, isWhiteSpace c = true)) ∧
  (∀ c, t.head? = some c → isWhiteSpace c = false) ∧
  (∀ c, t.getLast? = some c → isWhiteSpace c = false)

/-- Following the specification's words ("appends to its owning collection"): `ys` is
`xs` with exactly one new entry at the end, so the length grows by one and every entry
of `xs` keeps its value and its position. -/
def IsOneAppended {α : Type} (xs ys : List α) : Prop :=
  ys.length = xs.length + 1 ∧ ∀ i, i < xs.length → ys[i]? = xs[i]?

/-! ## Built-in functions reachable by editing -/

/-- One editing step on the built-in function collection: a click on "Add Function"
with the draft then in the form, or a click on the remove button of the entry at
`index`. -/
inductive BuiltinOp where
  | add (newFunction : BuiltinFunction) : BuiltinOp
  | remove (index : Nat) : BuiltinOp
  deriving DecidableEq, Repr

/-- The built-in function collection after one editing step: the list given to
`onChange` replaces it, and it stays as it is when the callback is not called. -/
def BuiltinOp.apply (builtinFunctions : List BuiltinFunction) :
    BuiltinOp → List BuiltinFunction
  | .add newFunction => (addFunction builtinFunctions newFunction).1.getD builtinFunctions
  | .remove index => removeByIndex builtinFunctions index

/-- The built-in function collection reached from the empty one by a sequence of
steps. -/
def runBuiltinOps (ops : List BuiltinOp) : List BuiltinFunction :=
  ops.foldl BuiltinOp.apply []

/-! ## The application: state and collaborator calls -/

/-- The initial value of the `languageSpec` state of `App`. -/
def initialLanguageSpec : LanguageSpec :=
  { name := []
    version := "1.0.0".toList
    description := []
    language_type := "interpreted".toList
    grammar_rules := []
    syntax_rules := []
    semantic_actions := []
    keywords := []
    operators := []
    builtin_functions := []
    data_types := ["integer".toList, "float".toList, "string".toList, "boolean".toList]
    target_language := "python".toList
    file_extension := ".prog".toList
    comment_syntax :=
      { single_line := "//".toList, multi_line_start := "/*".toList,
        multi_line_end := "*/".toList } }

/-- The data of a successful generation response, as the specification describes it. -/
structure GenerationResult where
  language_name : JSString
  language_type : JSString
  files_generated : List JSString
  deriving DecidableEq, Repr

/-- The request object `handleGenerate` passes to `api.generateLanguage`. -/
structure GenerateRequest where
  specification : LanguageSpec
  include_examples : Bool
  include_documentation : Bool
  deriving DecidableEq, Repr

/-- The bytes of a downloaded archive. -/
abbrev Blob := List Nat

/-- The HTTP method of a call of the client. -/
inductive HttpMethod where
  | get : HttpMethod
  | post : HttpMethod
  deriving DecidableEq, Repr

/-- The payload of a call of the client. -/
inductive Body where
  | empty : Body
  | spec (spec : LanguageSpec) : Body
  | request (request : GenerateRequest) : Body
  deriving DecidableEq, Repr

/-- A call of the HTTP client `apiClient` of `services/api.js`. -/
structure ApiCall where
  method : HttpMethod
  path : JSString
  body : Body
  responseType : Option JSString
  deriving DecidableEq, Repr

/-- The function `api.saveLanguage`: `apiClient.post('/api/languages', spec)`. -/
def api.saveLanguage (spec : LanguageSpec) : ApiCall :=
  { method := HttpMethod.post, path := "/api/languages".toList, body := Body.spec spec,
    responseType := none }

/-- The function `api.generateLanguage`: `apiClient.post('/api/generate', request)`. -/
def api.generateLanguage (request : GenerateRequest) : ApiCall :=
  { method := HttpMethod.post, path := "/api/generate".toList,
    body := Body.request request, responseType := none }

/-- The function `api.downloadLanguage`: a `get` of the template literal
`/api/download/${languageName}` with `responseType: 'blob'`. -/
def api.downloadLanguage (languageName : JSString) : ApiCall :=
  { method := HttpMethod.get, path := "/api/download/".toList ++ languageName,
    body := Body.empty, responseType := some "blob".toList }

/-- The error a rejected call is caught with: `error.response?.data?.detail`, when
there is one (taken as a string), and `error.message`. -/
structure ApiError where
  detail : Option JSString
  message : JSString
  deriving DecidableEq, Repr

/-- The expression `error.response?.data?.detail || error.message`. -/
def errorText (error : ApiError) : JSString :=
  match error.detail with
  | some detail => if truthy detail then detail else error.message
  | none => error.message

/-- How an awaited call ends: the promise resolves with `response.data`, or it is
rejected with an error. -/
inductive Outcome (α : Type) where
  | resolved (data : α) : Outcome α
  | rejected (error : ApiError) : Outcome α
  deriving DecidableEq, Repr

/-- What a handler of `App` does, one step at a time: the state setters, the calls of
the client, and what the user is shown. -/
inductive Effect where
  | setLanguageSpec (spec : LanguageSpec) : Effect
  | setIsGenerating (value : Bool) : Effect
  | setGeneratedResult (data : Option GenerationResult) : Effect
  | call (request : ApiCall) : Effect
  | alert (message : JSString) : Effect
  | consoleError (label : JSString) (error : ApiError) : Effect
  | saveFile (download : JSString) (data : Blob) : Effect
  deriving DecidableEq, Repr

/-- The state of `App`: `languageSpec`, `isGenerating`, `generatedResult` (`null` until
a generation response is stored). -/
structure AppState where
  languageSpec : LanguageSpec
  isGenerating : Bool
  generatedResult : Option GenerationResult
  deriving DecidableEq, Repr

/-- The state `App` starts in. -/
def initialAppState : AppState :=
  { languageSpec := initialLanguageSpec, isGenerating := false, generatedResult := none }

/-- The state after one effect: a setter replaces its piece of state, everything else
leaves the state alone. -/
def Effect.apply (st : AppState) : Effect → AppState
  | .setLanguageSpec spec => { st with languageSpec := spec }
  | .setIsGenerating value => { st with isGenerating := value }
  | .setGeneratedResult data => { st with generatedResult := data }
  | .call _ => st
  | .alert _ => st
  | .consoleError _ _ => st
  | .saveFile _ _ => st

/-- The state after a sequence of effects, in order. -/
def AppState.run (st : AppState) (effects : List Effect) : AppState :=
  effects.foldl Effect.apply st

/-! ## The handlers of `App` -/

/-- The object literal `{ specification: languageSpec, include_examples: true,
include_documentation: true }` of `handleGenerate`. -/
def generateRequest (languageSpec : LanguageSpec) : GenerateRequest :=
  { specification := languageSpec, include_examples := true, include_documentation := true }

/-- The handler `handleGenerate` up to its `await`, for the `languageSpec` of the
render it was created in. -/
def handleGenerateStart (languageSpec : LanguageSpec) : List Effect :=
  [Effect.setIsGenerating true, Effect.call (api.generateLanguage (generateRequest languageSpec))]

/-- The handler `handleGenerate` from its `await` on: the `try` branch when the call
resolved, the `catch` branch when it was rejected, and the `finally` block after either. -/
def handleGenerateFinish (outcome : Outcome (Option GenerationResult)) : List Effect :=
  (match outcome with
    | .resolved data =>
      [Effect.setGeneratedResult data, Effect.alert "Language generated successfully!".toList]
    | .rejected error =>
      [Effect.consoleError "Error generating language:".toList error,
       Effect.alert ("Error generating language: ".toList ++ errorText error)]) ++
  [Effect.setIsGenerating false]

/-- The handler `handleSave` up to its `await`. -/
def handleSaveStart (languageSpec : LanguageSpec) : List Effect :=
  [Effect.call (api.saveLanguage languageSpec)]

/-- The handler `handleSave` from its `await` on. -/
def handleSaveFinish (outcome : Outcome Unit) : List Effect :=
  match outcome with
  | .resolved _ => [Effect.alert "Language specification saved!".toList]
  | .rejected error =>
    [Effect.consoleError "Error saving language:".toList error,
     Effect.alert ("Error saving language: ".toList ++ errorText error)]

/-- The handler `handleDownload` up to its `await`. -/
def handleDownloadStart (languageSpec : LanguageSpec) : List Effect :=
  [Effect.call (api.downloadLanguage languageSpec.name)]

/-- The handler `handleDownload` from its `await` on: the link with the attribute
`download` set to `${languageSpec.name}.zip` is clicked, for the `languageSpec` of the
render the handler was created in. -/
def handleDownloadFinish (languageSpec : LanguageSpec) (outcome : Outcome Blob) :
    List Effect :=
  match outcome with
  | .resolved data => [Effect.saveFile (languageSpec.name ++ ".zip".toList) data]
  | .rejected error =>
    [Effect.consoleError "Error downloading language:".toList error,
     Effect.alert ("Error downloading language: ".toList ++ errorText error)]

/-! ## A session: the application driven through its buttons and editors -/

/-- A call that was dispatched and has not ended yet, with what its handler holds on
to: the request sent, or the `languageSpec` of the render the handler was created in. -/
inductive Pending where
  | generate (request : GenerateRequest) : Pending
  | save (languageSpec : LanguageSpec) : Pending
  | download (languageSpec : LanguageSpec) : Pending
  deriving DecidableEq, Repr

/-- The application with its history: the state of `App`, the calls in flight, every
effect performed so far (oldest first), and the generate requests that resolved, each
with the data received. -/
structure Session where
  app : AppState
  pending : List Pending
  log : List Effect
  succeeded : List (GenerateRequest × Option GenerationResult)
  deriving DecidableEq, Repr

/-- The session `App` starts in. -/
def initialSession : Session :=
  { app := initialAppState, pending := [], log := [], succeeded := [] }

/-- Performing effects: they act on the state and are recorded. -/
def Session.perform (s : Session) (effects : List Effect) : Session :=
  { s with app := s.app.run effects, log := s.log ++ effects }

/-- The attribute `disabled={isGenerating || !languageSpec.name}` of the Generate
button. -/
def generateDisabled (st : AppState) : Bool :=
  st.isGenerating || !truthy st.languageSpec.name

/-- The condition `generatedResult && ...` under which the Download button is
rendered. -/
def downloadOffered (st : AppState) : Bool := st.generatedResult.isSome

/-- An invocation of `handleGenerate`: it runs up to its `await`, and the request is
in flight. -/
def dispatchGenerate (s : Session) : Session :=
  { s.perform (handleGenerateStart s.app.languageSpec) with
    pending := s.pending ++ [Pending.generate (generateRequest s.app.languageSpec)] }

/-- An invocation of `handleSave`. -/
def dispatchSave (s : Session) : Session :=
  { s.perform (handleSaveStart s.app.languageSpec) with
    pending := s.pending ++ [Pending.save s.app.languageSpec] }

/-- An invocation of `handleDownload`. -/
def dispatchDownload (s : Session) : Session :=
  { s.perform (handleDownloadStart s.app.languageSpec) with
    pending := s.pending ++ [Pending.download s.app.languageSpec] }

/-- What can happen to the application: an editor passes
`{ ...languageSpec, [field]: value }` to `setLanguageSpec`, a button is clicked, or the
call in flight at position `index` ends. -/
inductive AppEvent where
  | change (field : SpecField) (value : field.Value) : AppEvent
  | clickSave : AppEvent
  | clickGenerate : AppEvent
  | clickDownload : AppEvent
  | saveEnds (index : Nat) (outcome : Outcome Unit) : AppEvent
  | generateEnds (index : Nat) (outcome : Outcome (Option GenerationResult)) : AppEvent
  | downloadEnds (index : Nat) (outcome : Outcome Blob) : AppEvent

/-- The session after one event.  A click reaches its handler only when the button is
there and enabled; a call ends only if it is in flight. -/
def AppEvent.apply (s : Session) : AppEvent → Session
  | .change field value =>
    s.perform [Effect.setLanguageSpec (handleChange s.app.languageSpec field value)]
  | .clickSave => dispatchSave s
  | .clickGenerate => if generateDisabled s.app then s else dispatchGenerate s
  | .clickDownload => if downloadOffered s.app then dispatchDownload s else s
  | .saveEnds index outcome =>
    match s.pending[index]? with
    | some (Pending.save _) =>
      { s.perform (handleSaveFinish outcome) with pending := s.pending.eraseIdx index }
    | _ => s
  | .generateEnds index outcome =>
    match s.pending[index]? with
    | some (Pending.generate request) =>
      { s.perform (handleGenerateFinish outcome) with
        pending := s.pending.eraseIdx index
        succeeded :=
          match outcome with
          | .resolved data => s.succeeded ++ [(request, data)]
          | .rejected _ => s.succeeded }
    | _ => s
  | .downloadEnds index outcome =>
    match s.pending[index]? with
    | some (Pending.download languageSpec) =>
      { s.perform (handleDownloadFinish languageSpec outcome) with
        pending := s.pending.eraseIdx index }
    | _ => s

/-- The session reached from the initial one by a sequence of events. -/
def runSession (events : List AppEvent) : Session :=
  events.foldl AppEvent.apply initialSession

/-- The generate requests in flight. -/
def Session.generatesInFlight (s : Session) : List GenerateRequest :=
  s.pending.filterMap (fun p => match p with | Pending.generate request => some request | _ => none)

/-- The calls of the client recorded in a list of effects, in order. -/
def apiCalls (effects : List Effect) : List ApiCall :=
  effects.filterMap (fun e => match e with | Effect.call request => some request | _ => none)

/-! ## The validation rules of the specification -/

/-- Following the specification's words (rule 6 of the validator): the tokens of the
syntax rules that match neither a declared `Keyword.word` nor an `Operator.symbol`, in
order. -/
def unresolvedTokens (spec : LanguageSpec) : List JSString :=
  (spec.syntax_rules.flatMap (fun rule => rule.tokens)).filter
    (fun token =>
      !(spec.keywords.map Keyword.word).contains token &&
      !(spec.operators.map Operator.symbol).contains token)

/-- Following the specification's words (rule 2 of the validator): two keywords of the
specification share their `word`. -/
def hasDuplicateKeyword (spec : LanguageSpec) : Prop :=
  ¬ (spec.keywords.map Keyword.word).Nodup

/-- The concrete scenario of the specification: the language `Mini` with the keyword
`if`, the operator `+` and one syntax rule whose tokens are `+` and the undeclared `*`;
every other field as in the initial specification. -/
def miniSpec : LanguageSpec :=
  { initialLanguageSpec with
    name := "Mini".toList
    keywords := [{ word := "if".toList, category := [], description := [] }]
    operators :=
      [{ symbol := ['+'], precedence := JSInt.int 1, associativity := "left".toList,
         operation_type := [], implementation := [] }]
    syntax_rules :=
      [{ rule_type := "expression".toList, pattern := "a + b".toList,
         tokens := [['+'], ['*']], precedence := JSInt.int 0,
         associativity := "left".toList }] }

/-- The edits that build `miniSpec` in the initial application. -/
def miniEvents : List AppEvent :=
  [AppEvent.change SpecField.name "Mini".toList,
   AppEvent.change SpecField.keywords miniSpec.keywords,
   AppEvent.change SpecField.operators miniSpec.operators,
   AppEvent.change SpecField.syntax_rules miniSpec.syntax_rules]

/-- The history of a session is in order when: a stored `generatedResult` is the data
of a generate request that resolved; and every generate request that resolved or is in
flight was sent by a call recorded in the log, for a specification with a non-empty
name. -/
def Session.HistoryOk (s : Session) : Prop :=
  (∀ result, s.app.generatedResult = some result →
    ∃ request, (request, some result) ∈ s.succeeded) ∧
  (∀ p ∈ s.succeeded, p.1.specification.name ≠ [] ∧
    Effect.call (api.generateLanguage p.1) ∈ s.log) ∧
  (∀ request, Pending.generate request ∈ s.pending →
    request.specification.name ≠ [] ∧ Effect.call (api.generateLanguage request) ∈ s.log)

/-! ## Semantic actions reachable by editing -/

/-- One editing step on the semantic action collection: a click on "Add Action" with
the draft then in the form, or a click on the remove button of the entry at `index`. -/
inductive ActionOp where
  | add (newAction : SemanticAction) : ActionOp
  | remove (index : Nat) : ActionOp
  deriving DecidableEq, Repr

/-- The semantic action collection after one editing step: the list given to
`onChange` replaces it, and it stays as it is when the callback is not called. -/
def ActionOp.apply (semanticActions : List SemanticAction) :
    ActionOp → List SemanticAction
  | .add newAction => (addAction semanticActions newAction).1.getD semanticActions
  | .remove index => removeByIndex semanticActions index

/-- The semantic action collection reached from the empty one by a sequence of steps. -/
def runActionOps (ops : List ActionOp) : List SemanticAction :=
  ops.foldl ActionOp.apply []

/-! ## Language configuration: the comment markers -/

/-- The property names of the `comment_syntax` object. -/
inductive CommentField where
  | single_line | multi_line_start | multi_line_end
  deriving DecidableEq, Repr

/-- Property access `comment_syntax[field]`. -/
def CommentSyntax.get (markers : CommentSyntax) : CommentField → JSString
  | .single_line => markers.single_line
  | .multi_line_start => markers.multi_line_start
  | .multi_line_end => markers.multi_line_end

/-- The object `{ ...spec.comment_syntax, [field]: value }`. -/
def CommentSyntax.set (markers : CommentSyntax) : CommentField → JSString → CommentSyntax
  | .single_line, value => { markers with single_line := value }
  | .multi_line_start, value => { markers with multi_line_start := value }
  | .multi_line_end, value => { markers with multi_line_end := value }

/-- The handler `handleCommentChange` of `LanguageConfig`: the object
`{ ...spec, comment_syntax: { ...spec.comment_syntax, [field]: value } }` passed to
`onChange`. -/
def handleCommentChange (spec : LanguageSpec) (field : CommentField) (value : JSString) :
    LanguageSpec :=
  { spec with comment_syntax := CommentSyntax.set spec.comment_syntax field value }

/-- What a list of effects shows to the user or writes to the console: its alerts and
console errors, in order. -/
def reports (effects : List Effect) : List Effect :=
  effects.filter
    (fun e => match e with
      | Effect.alert _ => true
      | Effect.consoleError _ _ => true
      | _ => false)

/-! ## Facts about `split` -/

theorem split_ne_nil (sep : Char) (s : JSString) : split sep s ≠ [] := by
  induction s with
  | nil => simp [split]
  | cons c cs ih =>
    unfold split
    split_ifs
    · simp
    · cases h : split sep cs <;> simp

theorem intercalate_split (sep : Char) (s : JSString) :
    List.intercalate [sep] (split sep s) = s := by
  induction s with
  | nil => simp [split, List.intercalate]
  | cons c cs ih =>
    have hne := split_ne_nil sep cs
    unfold split
    split_ifs with hc
    · cases h : split sep cs with
      | nil => exact absurd h hne
      | cons p ps =>
        rw [h] at ih
        subst hc
        simp only [List.intercalate, List.intersperse, List.flatten, List.nil_append] at ih ⊢
        simp [ih]
    · cases h : split sep cs with
      | nil => exact absurd h hne
      | cons p ps =>
        rw [h] at ih
        cases ps with
        | nil =>
          simp only [List.intercalate, List.intersperse, List.flatten, List.append_nil] at ih ⊢
          simp [ih]
        | cons q qs =>
          simp only [List.intercalate, List.intersperse, List.flatten] at ih ⊢
          simpa using ih

theorem not_mem_of_mem_split (sep : Char) (s p : JSString) (hp : p ∈ split sep s) :
    sep ∉ p := by
  induction s generalizing p with
  | nil => simp [split] at hp; simp [hp]
  | cons c cs ih =>
    unfold split at hp
    split_ifs at hp with hc
    · rcases List.mem_cons.1 hp with h | h
      · simp [h]
      · exact ih p h
    · cases h : split sep cs with
      | nil => rw [h] at hp; simp at hp; subst hp; simpa using (Ne.symm hc)
      | cons q qs =>
        rw [h] at hp ih
        rcases List.mem_cons.1 hp with h1 | h1
        · subst h1
          have := ih q (List.mem_cons_self _ _)
          simp only [List.mem_cons, not_or]
          exact ⟨Ne.symm hc, this⟩
        · exact ih p (List.mem_cons_of_mem _ h1)

theorem mem_split_chars (sep : Char) (s : JSString) (c : Char) :
    (∃ p ∈ split sep s, c ∈ p) ↔ (c ∈ s ∧ c ≠ sep) := by
  induction s with
  | nil => simp [split]
  | cons d ds ih =>
    have hne := split_ne_nil sep ds
    unfold split
    split_ifs with hd
    · subst hd
      simp only [List.mem_cons, exists_eq_or_imp, List.not_mem_nil, false_or]
      rw [ih]
      constructor
      · rintro ⟨h1, h2⟩; exact ⟨Or.inr h1, h2⟩
      · rintro ⟨h1 | h1, h2⟩
        · exact absurd h1 h2
        · exact ⟨h1, h2⟩
    · cases h : split sep ds with
      | nil => exact absurd h hne
      | cons q qs =>
        rw [h] at ih
        simp only [List.mem_cons, exists_eq_or_imp] at ih ⊢
        constructor
        · rintro (h1 | h1)
          · rcases h1 with h1 | h1
            · subst h1; exact ⟨Or.inl rfl, hd⟩
            · have := ih.1 (Or.inl h1); exact ⟨Or.inr this.1, this.2⟩
          · have := ih.1 (Or.inr h1); exact ⟨Or.inr this.1, this.2⟩
        · rintro ⟨h1 | h1, h2⟩
          · exact Or.inl (Or.inl h1)
          · rcases ih.2 ⟨h1, h2⟩ with h3 | h3
            · exact Or.inl (Or.inr h3)
            · exact Or.inr h3

/-! ## Facts about `trim` -/

theorem trimStart_decomp (s : JSString) :
    ∃ l, s = l ++ trimStart s ∧ ∀ c ∈ l, isWhiteSpace c = true :=
  ⟨s.takeWhile isWhiteSpace, (List.takeWhile_append_dropWhile isWhiteSpace s).symm,
    fun _ hc => List.mem_takeWhile_imp hc⟩

theorem trimEnd_decomp (s : JSString) :
    ∃ r, s = trimEnd s ++ r ∧ ∀ c ∈ r, isWhiteSpace c = true := by
  refine ⟨(s.reverse.takeWhile isWhiteSpace).reverse, ?_, ?_⟩
  · have h := List.takeWhile_append_dropWhile isWhiteSpace s.reverse
    have h2 := congrArg List.reverse h
    simp only [List.reverse_append, List.reverse_reverse] at h2
    exact h2.symm
  · intro c hc
    exact List.mem_takeWhile_imp (List.mem_reverse.1 hc)

theorem trimStart_head (s : JSString) (c : Char) (h : (trimStart s).head? = some c) :
    isWhiteSpace c = false := by
  have := List.head?_dropWhile_not isWhiteSpace s
  unfold trimStart at h
  rw [h] at this
  exact this

theorem trimEnd_getLast (s : JSString) (c : Char) (h : (trimEnd s).getLast? = some c) :
    isWhiteSpace c = false := by
  have := List.head?_dropWhile_not isWhiteSpace s.reverse
  unfold trimEnd at h
  rw [List.getLast?_reverse] at h
  rw [h] at this
  exact this

theorem trim_head (s : JSString) (c : Char) (h : (trim s).head? = some c) :
    isWhiteSpace c = false := by
  obtain ⟨r, hr, _⟩ := trimEnd_decomp (trimStart s)
  apply trimStart_head s c
  have hne : trim s ≠ [] := by
    intro h0
    rw [h0] at h
    simp at h
  rw [hr]
  unfold trim at h hne
  cases hts : trimEnd (trimStart s) with
  | nil => exact absurd hts hne
  | cons a as =>
    rw [hts] at h
    simpa using h

theorem trim_isTrimOf (p : JSString) : IsTrimOf (trim p) p := by
  obtain ⟨l, hl, hlw⟩ := trimStart_decomp p
  obtain ⟨r, hr, hrw⟩ := trimEnd_decomp (trimStart p)
  refine ⟨⟨l, r, ?_, hlw, hrw⟩, trim_head p, fun c hc => trimEnd_getLast _ c hc⟩
  unfold trim
  rw [List.append_assoc, ← hr]
  exact hl

theorem trim_subset (p : JSString) (c : Char) (hc : c ∈ trim p) : c ∈ p := by
  obtain ⟨⟨l, r, h, _, _⟩, _⟩ := trim_isTrimOf p
  rw [h]
  simp [hc]

theorem trim_eq_nil_iff (p : JSString) :
    trim p = [] ↔ ∀ c ∈ p, isWhiteSpace c = true := by
  constructor
  · intro h0
    obtain ⟨⟨l, r, h, hl, hr⟩, _⟩ := trim_isTrimOf p
    rw [h0] at h
    intro c hc
    rw [h] at hc
    simp only [List.append_nil, List.mem_append] at hc
    rcases hc with hc | hc
    · exact hl c hc
    · exact hr c hc
  · intro h
    have h1 : trimStart p = [] := by
      unfold trimStart
      exact List.dropWhile_eq_nil_iff.2 h
    unfold trim
    rw [h1]
    rfl

/-! ## Syntax rules: the stored tokens -/

theorem truthy_iff (s : JSString) : truthy s = true ↔ s ≠ [] := by
  cases s <;> simp [truthy]

theorem addSyntaxRule_accepted (syntaxRules : List SyntaxRule)
    (newSyntaxRule : SyntaxRuleDraft) (hpattern : newSyntaxRule.pattern ≠ []) :
    (addSyntaxRule syntaxRules newSyntaxRule).1 =
      some (syntaxRules ++
        [{ rule_type := newSyntaxRule.rule_type
           pattern := newSyntaxRule.pattern
           tokens := tokensArray newSyntaxRule.tokens
           precedence := parseInt newSyntaxRule.precedence
           associativity := newSyntaxRule.associativity }]) := by
  have h : truthy newSyntaxRule.pattern = true := (truthy_iff _).2 hpattern
  simp [addSyntaxRule, h]

theorem tokensArray_mem (input t : JSString) (ht : t ∈ tokensArray input) :
    t ≠ [] ∧ (∀ c, t.head? = some c → isWhiteSpace c = false) ∧
      (∀ c, t.getLast? = some c → isWhiteSpace c = false) ∧ ',' ∉ t := by
  unfold tokensArray at ht
  obtain ⟨hmem, htr⟩ := List.mem_filter.1 ht
  obtain ⟨p, hp, rfl⟩ := List.mem_map.1 hmem
  obtain ⟨_, hhead, hlast⟩ := trim_isTrimOf p
  refine ⟨(truthy_iff _).1 htr, hhead, hlast, ?_⟩
  intro hc
  exact not_mem_of_mem_split ',' input p hp (trim_subset p ',' hc)

theorem tokensArray_eq_nil_iff (input : JSString) :
    tokensArray input = [] ↔ ∀ c ∈ input, c = ',' ∨ isWhiteSpace c = true := by
  unfold tokensArray
  rw [List.filter_eq_nil_iff]
  constructor
  · intro h c hc
    by_cases hcomma : c = ','
    · exact Or.inl hcomma
    · right
      obtain ⟨p, hp, hcp⟩ := (mem_split_chars ',' input c).2 ⟨hc, hcomma⟩
      have h1 := h (trim p) (List.mem_map.2 ⟨p, hp, rfl⟩)
      have h2 : trim p = [] := by
        by_contra hne
        exact h1 ((truthy_iff _).2 hne)
      exact (trim_eq_nil_iff p).1 h2 c hcp
  · intro h t ht
    obtain ⟨p, hp, rfl⟩ := List.mem_map.1 ht
    have h2 : trim p = [] := by
      rw [trim_eq_nil_iff]
      intro c hcp
      have hm := (mem_split_chars ',' input c).1 ⟨p, hp, hcp⟩
      rcases h c hm.1 with h3 | h3
      · exact absurd h3 hm.2
      · exact h3
    rw [h2]
    simp [truthy]

/-- C1: for a draft with a non-empty pattern, `addSyntaxRule` appends a rule whose
`tokens` are the pieces of the tokens text between its commas (the pieces joined by
commas give the text back and none holds a comma), each trimmed of the white space at
its ends, without the pieces that are empty once trimmed, in the order of the text;
so no stored token is empty, starts or ends with white space, or holds a comma. -/
theorem addSyntaxRule_tokens_split_trim_filter (syntaxRules : List SyntaxRule)
    (newSyntaxRule : SyntaxRuleDraft) (hpattern : newSyntaxRule.pattern ≠ []) :
    ∃ (rule : SyntaxRule) (pieces trimmed : List JSString),
      (addSyntaxRule syntaxRules newSyntaxRule).1 = some (syntaxRules ++ [rule]) ∧
      pieces ≠ [] ∧ List.intercalate [','] pieces = newSyntaxRule.tokens ∧
      (∀ p ∈ pieces, ',' ∉ p) ∧
      List.Forall₂ IsTrimOf trimmed pieces ∧
      rule.tokens = trimmed.filter (fun t => decide (t ≠ [])) ∧
      ∀ t ∈ rule.tokens, t ≠ [] ∧ (∀ c, t.head? = some c → isWhiteSpace c = false) ∧
        (∀ c, t.getLast? = some c → isWhiteSpace c = false) ∧ ',' ∉ t := by
  refine ⟨_, split ',' newSyntaxRule.tokens, (split ',' newSyntaxRule.tokens).map trim,
    addSyntaxRule_accepted syntaxRules newSyntaxRule hpattern, split_ne_nil _ _,
    intercalate_split _ _, fun p hp => not_mem_of_mem_split _ _ p hp, ?_, ?_,
    fun t ht => tokensArray_mem _ t ht⟩
  · rw [List.forall₂_map_left_iff, List.forall₂_same]
    exact fun p _ => trim_isTrimOf p
  · show tokensArray newSyntaxRule.tokens = _
    unfold tokensArray
    apply List.filter_congr
    intro t _
    cases t <;> simp [truthy]

/-- The draft used to exercise `addSyntaxRule`: pattern `a+b`, tokens text ` +, *,,`. -/
theorem addSyntaxRule_tokens_split_trim_filter_witness :
    ("a+b".toList ≠ []) ∧
    ∃ (rule : SyntaxRule) (pieces trimmed : List JSString),
      (addSyntaxRule []
        { rule_type := "expression".toList, pattern := "a+b".toList,
          tokens := " +, *,,".toList, precedence := "1".toList,
          associativity := "left".toList }).1 = some ([] ++ [rule]) ∧
      pieces ≠ [] ∧ List.intercalate [','] pieces = " +, *,,".toList ∧
      (∀ p ∈ pieces, ',' ∉ p) ∧
      List.Forall₂ IsTrimOf trimmed pieces ∧
      rule.tokens = trimmed.filter (fun t => decide (t ≠ [])) ∧
      ∀ t ∈ rule.tokens, t ≠ [] ∧ (∀ c, t.head? = some c → isWhiteSpace c = false) ∧
        (∀ c, t.getLast? = some c → isWhiteSpace c = false) ∧ ',' ∉ t :=
  ⟨by decide,
    addSyntaxRule_tokens_split_trim_filter []
      { rule_type := "expression".toList, pattern := "a+b".toList,
        tokens := " +, *,,".toList, precedence := "1".toList,
        associativity := "left".toList } (by decide)⟩

/-- C2: for a draft with a non-empty pattern, `addSyntaxRule` appends a rule in every
case, and the `tokens` of that rule are empty exactly when the tokens text holds only
commas and white space (the empty text included). -/
theorem addSyntaxRule_token_free_iff (syntaxRules : List SyntaxRule)
    (newSyntaxRule : SyntaxRuleDraft) (hpattern : newSyntaxRule.pattern ≠ []) :
    ∃ rule : SyntaxRule,
      (addSyntaxRule syntaxRules newSyntaxRule).1 = some (syntaxRules ++ [rule]) ∧
      (rule.tokens = [] ↔
        ∀ c ∈ newSyntaxRule.tokens, c = ',' ∨ isWhiteSpace c = true) :=
  ⟨_, addSyntaxRule_accepted syntaxRules newSyntaxRule hpattern,
    tokensArray_eq_nil_iff newSyntaxRule.tokens⟩

/-- A token-free rule: pattern `e`, tokens text ` , ,`. -/
theorem addSyntaxRule_token_free_iff_witness :
    (['e'] ≠ []) ∧
    ∃ rule : SyntaxRule,
      (addSyntaxRule []
        { rule_type := "statement".toList, pattern := ['e'], tokens := " , ,".toList,
          precedence := ['0'], associativity := "left".toList }).1
        = some ([] ++ [rule]) ∧
      (rule.tokens = [] ↔ ∀ c ∈ " , ,".toList, c = ',' ∨ isWhiteSpace c = true) :=
  ⟨by decide,
    addSyntaxRule_token_free_iff []
      { rule_type := "statement".toList, pattern := ['e'], tokens := " , ,".toList,
        precedence := ['0'], associativity := "left".toList } (by decide)⟩

/-! ## Removal by position and appending -/

theorem removeByIndex_enumFrom {α : Type} (xs : List α) (k i : Nat) :
    ((xs.enumFrom k).filter (fun p => p.1 != k + i)).map Prod.snd = xs.eraseIdx i := by
  induction xs generalizing k i with
  | nil => simp
  | cons x xs ih =>
    cases i with
    | zero =>
      have hall : ∀ p ∈ List.enumFrom (k + 1) xs, (p.1 != k + 0) = true := by
        intro p hp
        have := List.le_fst_of_mem_enumFrom hp
        simp only [Nat.add_zero, bne_iff_ne, ne_eq]
        omega
      simp only [List.enumFrom_cons, List.eraseIdx_cons_zero]
      rw [List.filter_cons_of_neg (by simp), List.filter_eq_self.2 hall]
      exact List.enumFrom_map_snd _ _
    | succ j =>
      simp only [List.enumFrom_cons, List.eraseIdx_cons_succ]
      rw [List.filter_cons_of_pos (by simp)]
      have := ih (k + 1) j
      rw [show k + 1 + j = k + (j + 1) by omega] at this
      simp [this]

theorem removeByIndex_eq_eraseIdx {α : Type} (xs : List α) (index : Nat) :
    removeByIndex xs index = xs.eraseIdx index := by
  have := removeByIndex_enumFrom xs 0 index
  simpa [removeByIndex, List.enum] using this

theorem removeByIndex_append_last {α : Type} (xs : List α) (x : α) :
    removeByIndex (xs ++ [x]) xs.length = xs := by
  rw [removeByIndex_eq_eraseIdx]
  induction xs with
  | nil => rfl
  | cons y ys ih => simp [List.eraseIdx_cons_succ, ih]

theorem isOneAppended_append {α : Type} (xs : List α) (x : α) :
    IsOneAppended xs (xs ++ [x]) := by
  refine ⟨by simp, fun i hi => ?_⟩
  exact List.getElem?_append_left hi

theorem addKeyword_some (keywords ys : List Keyword) (newKeyword : Keyword)
    (h : (addKeyword keywords newKeyword).1 = some ys) :
    truthy newKeyword.word = true ∧ ys = keywords ++ [newKeyword] := by
  unfold addKeyword at h
  cases ht : truthy newKeyword.word <;> simp [ht] at h
  exact ⟨rfl, h.symm⟩

theorem addOperator_some (operators ys : List Operator) (newOperator : OperatorDraft)
    (h : (addOperator operators newOperator).1 = some ys) :
    truthy newOperator.symbol = true ∧ ∃ op : Operator,
      op.symbol = newOperator.symbol ∧ op.precedence = parseInt newOperator.precedence ∧
      ys = operators ++ [op] := by
  unfold addOperator at h
  cases ht : truthy newOperator.symbol <;> simp [ht] at h
  exact ⟨rfl, _, rfl, rfl, h.symm⟩

theorem addSyntaxRule_some (syntaxRules ys : List SyntaxRule)
    (newSyntaxRule : SyntaxRuleDraft)
    (h : (addSyntaxRule syntaxRules newSyntaxRule).1 = some ys) :
    truthy newSyntaxRule.pattern = true ∧ ∃ rule : SyntaxRule,
      rule.pattern = newSyntaxRule.pattern ∧
      rule.precedence = parseInt newSyntaxRule.precedence ∧
      ys = syntaxRules ++ [rule] := by
  unfold addSyntaxRule at h
  cases ht : truthy newSyntaxRule.pattern <;> simp [ht] at h
  exact ⟨rfl, _, rfl, rfl, h.symm⟩

theorem addAction_some (semanticActions ys : List SemanticAction)
    (newAction : SemanticAction) (h : (addAction semanticActions newAction).1 = some ys) :
    (truthy newAction.rule_name = true ∧ truthy newAction.action_code = true) ∧
      ys = semanticActions ++ [newAction] := by
  unfold addAction at h
  cases h1 : truthy newAction.rule_name <;> cases h2 : truthy newAction.action_code <;>
    simp [h1, h2] at h
  exact ⟨⟨rfl, rfl⟩, h.symm⟩

theorem addFunction_some (builtinFunctions ys : List BuiltinFunction)
    (newFunction : BuiltinFunction)
    (h : (addFunction builtinFunctions newFunction).1 = some ys) :
    (truthy newFunction.name = true ∧ truthy newFunction.description = true) ∧
      ys = builtinFunctions ++ [newFunction] := by
  unfold addFunction at h
  cases h1 : truthy newFunction.name <;> cases h2 : truthy newFunction.description <;>
    simp [h1, h2] at h
  exact ⟨⟨rfl, rfl⟩, h.symm⟩

theorem addGrammarRule_some (grammarRules ys : List GrammarRule) (nodes : List FlowNode)
    (editingRule : EditingRule) (now : Nat) (rand1 rand2 : Coord)
    (h : (addGrammarRule grammarRules nodes editingRule now rand1 rand2).changed = some ys) :
    (truthy editingRule.name = true ∧ truthy editingRule.pattern = true) ∧
      ∃ rule : GrammarRule, rule.name = editingRule.name ∧
        rule.pattern = editingRule.pattern ∧ rule.node_id = nodeIdAt now ∧
        ys = grammarRules ++ [rule] := by
  unfold addGrammarRule at h
  cases h1 : truthy editingRule.name <;> cases h2 : truthy editingRule.pattern <;>
    simp [h1, h2] at h
  exact ⟨⟨rfl, rfl⟩, _, rfl, rfl, rfl, h.symm⟩

/-! ## Deleting a grammar rule by id -/

/-- C3: when no rule of the list has `ruleId` as its `node_id`, `deleteRule` passes to
`onChange` the list it was given: the same rules in the same order.  The handler is a
total function, so it returns without an error. -/
theorem deleteRule_absent_id_unchanged (grammarRules : List GrammarRule)
    (nodes : List FlowNode) (editingRule : EditingRule) (ruleId : JSString)
    (habsent : ∀ r ∈ grammarRules, r.node_id ≠ ruleId) :
    (deleteRule grammarRules nodes editingRule ruleId).changed = some grammarRules := by
  unfold deleteRule
  simp only [Option.some.injEq]
  apply List.filter_eq_self.2
  intro r hr
  simpa using habsent r hr

/-- Deleting the stale id `node-7` from a list holding the rules `node-1` and `node-2`. -/
theorem deleteRule_absent_id_unchanged_witness :
    (∀ r ∈ [({ name := ['e'], pattern := ['t'], description := [],
               node_id := nodeIdAt 1, x := 0, y := 0 } : GrammarRule),
            { name := ['t'], pattern := ['f'], description := [],
              node_id := nodeIdAt 2, x := 0, y := 0 }],
        r.node_id ≠ nodeIdAt 7) ∧
    (deleteRule
        [({ name := ['e'], pattern := ['t'], description := [],
            node_id := nodeIdAt 1, x := 0, y := 0 } : GrammarRule),
         { name := ['t'], pattern := ['f'], description := [],
           node_id := nodeIdAt 2, x := 0, y := 0 }]
        [] emptyEditingRule (nodeIdAt 7)).changed =
      some [({ name := ['e'], pattern := ['t'], description := [],
               node_id := nodeIdAt 1, x := 0, y := 0 } : GrammarRule),
            { name := ['t'], pattern := ['f'], description := [],
              node_id := nodeIdAt 2, x := 0, y := 0 }] :=
  ⟨by decide, deleteRule_absent_id_unchanged _ [] emptyEditingRule (nodeIdAt 7) (by decide)⟩

/-! ## Appending, and removing what was appended -/

/-- C7: in each of the five collections (keywords, operators, syntax rules, semantic
actions, built-in functions), when the add handler accepts the draft and passes the
list `ys` to its change callback, removing from `ys` by position at index
`length xs` gives back the collection `xs` it started from. -/
theorem append_then_removeByIndex_roundtrip :
    (∀ (keywords ys : List Keyword) (newKeyword : Keyword),
      (addKeyword keywords newKeyword).1 = some ys →
      removeByIndex ys keywords.length = keywords) ∧
    (∀ (operators ys : List Operator) (newOperator : OperatorDraft),
      (addOperator operators newOperator).1 = some ys →
      removeByIndex ys operators.length = operators) ∧
    (∀ (syntaxRules ys : List SyntaxRule) (newSyntaxRule : SyntaxRuleDraft),
      (addSyntaxRule syntaxRules newSyntaxRule).1 = some ys →
      removeByIndex ys syntaxRules.length = syntaxRules) ∧
    (∀ (semanticActions ys : List SemanticAction) (newAction : SemanticAction),
      (addAction semanticActions newAction).1 = some ys →
      removeByIndex ys semanticActions.length = semanticActions) ∧
    (∀ (builtinFunctions ys : List BuiltinFunction) (newFunction : BuiltinFunction),
      (addFunction builtinFunctions newFunction).1 = some ys →
      removeByIndex ys builtinFunctions.length = builtinFunctions) := by
  refine ⟨?_, ?_, ?_, ?_, ?_⟩
  · intro xs ys d h
    obtain ⟨_, rfl⟩ := addKeyword_some xs ys d h
    exact removeByIndex_append_last _ _
  · intro xs ys d h
    obtain ⟨_, op, _, _, rfl⟩ := addOperator_some xs ys d h
    exact removeByIndex_append_last _ _
  · intro xs ys d h
    obtain ⟨_, rule, _, _, rfl⟩ := addSyntaxRule_some xs ys d h
    exact removeByIndex_append_last _ _
  · intro xs ys d h
    obtain ⟨_, rfl⟩ := addAction_some xs ys d h
    exact removeByIndex_append_last _ _
  · intro xs ys d h
    obtain ⟨_, rfl⟩ := addFunction_some xs ys d h
    exact removeByIndex_append_last _ _

/-- Adding the keyword `if` after `let`, and the operator `+` to an empty collection,
then removing at the old length. -/
theorem append_then_removeByIndex_roundtrip_witness :
    removeByIndex
      [({ word := "let".toList, category := [], description := [] } : Keyword),
       { word := "if".toList, category := [], description := [] }] 1 =
      [{ word := "let".toList, category := [], description := [] }] ∧
    removeByIndex
      [({ symbol := ['+'], precedence := JSInt.int 1, associativity := "left".toList,
          operation_type := [], implementation := [] } : Operator)] 0 = [] :=
  ⟨append_then_removeByIndex_roundtrip.1
      [{ word := "let".toList, category := [], description := [] }] _
      { word := "if".toList, category := [], description := [] } (by decide),
   append_then_removeByIndex_roundtrip.2.1 [] _
      { symbol := ['+'], precedence := ['1'], associativity := "left".toList,
        operation_type := [], implementation := [] } (by decide)⟩

/-- C8: whenever one of the six add handlers (`addKeyword`, `addOperator`,
`addSyntaxRule`, `addAction`, `addFunction`, `addGrammarRule`) passes a list `ys` to its
change callback, `ys` is the input collection followed by exactly one new entry: its
length is one more and every earlier entry keeps its value and position. -/
theorem add_appends_exactly_one :
    (∀ (keywords ys : List Keyword) (newKeyword : Keyword),
      (addKeyword keywords newKeyword).1 = some ys →
      (∃ x, ys = keywords ++ [x]) ∧ IsOneAppended keywords ys) ∧
    (∀ (operators ys : List Operator) (newOperator : OperatorDraft),
      (addOperator operators newOperator).1 = some ys →
      (∃ x, ys = operators ++ [x]) ∧ IsOneAppended operators ys) ∧
    (∀ (syntaxRules ys : List SyntaxRule) (newSyntaxRule : SyntaxRuleDraft),
      (addSyntaxRule syntaxRules newSyntaxRule).1 = some ys →
      (∃ x, ys = syntaxRules ++ [x]) ∧ IsOneAppended syntaxRules ys) ∧
    (∀ (semanticActions ys : List SemanticAction) (newAction : SemanticAction),
      (addAction semanticActions newAction).1 = some ys →
      (∃ x, ys = semanticActions ++ [x]) ∧ IsOneAppended semanticActions ys) ∧
    (∀ (builtinFunctions ys : List BuiltinFunction) (newFunction : BuiltinFunction),
      (addFunction builtinFunctions newFunction).1 = some ys →
      (∃ x, ys = builtinFunctions ++ [x]) ∧ IsOneAppended builtinFunctions ys) ∧
    (∀ (grammarRules ys : List GrammarRule) (nodes : List FlowNode)
      (editingRule : EditingRule) (now : Nat) (rand1 rand2 : Coord),
      (addGrammarRule grammarRules nodes editingRule now rand1 rand2).changed = some ys →
      (∃ x, ys = grammarRules ++ [x]) ∧ IsOneAppended grammarRules ys) := by
  refine ⟨?_, ?_, ?_, ?_, ?_, ?_⟩
  · intro xs ys d h
    obtain ⟨_, rfl⟩ := addKeyword_some xs ys d h
    exact ⟨⟨_, rfl⟩, isOneAppended_append _ _⟩
  · intro xs ys d h
    obtain ⟨_, op, _, _, rfl⟩ := addOperator_some xs ys d h
    exact ⟨⟨_, rfl⟩, isOneAppended_append _ _⟩
  · intro xs ys d h
    obtain ⟨_, rule, _, _, rfl⟩ := addSyntaxRule_some xs ys d h
    exact ⟨⟨_, rfl⟩, isOneAppended_append _ _⟩
  · intro xs ys d h
    obtain ⟨_, rfl⟩ := addAction_some xs ys d h
    exact ⟨⟨_, rfl⟩, isOneAppended_append _ _⟩
  · intro xs ys d h
    obtain ⟨_, rfl⟩ := addFunction_some xs ys d h
    exact ⟨⟨_, rfl⟩, isOneAppended_append _ _⟩
  · intro xs ys nodes d now r1 r2 h
    obtain ⟨_, rule, _, _, _, rfl⟩ := addGrammarRule_some xs ys nodes d now r1 r2 h
    exact ⟨⟨_, rfl⟩, isOneAppended_append _ _⟩

/-- Adding the keyword `if` after `let`: the list passed on is `let`, `if`. -/
theorem add_appends_exactly_one_witness :
    (∃ x, [({ word := "let".toList, category := [], description := [] } : Keyword),
           { word := "if".toList, category := [], description := [] }] =
        [{ word := "let".toList, category := [], description := [] }] ++ [x]) ∧
    IsOneAppended
      [({ word := "let".toList, category := [], description := [] } : Keyword)]
      [{ word := "let".toList, category := [], description := [] },
       { word := "if".toList, category := [], description := [] }] :=
  add_appends_exactly_one.1
    [{ word := "let".toList, category := [], description := [] }] _
    { word := "if".toList, category := [], description := [] } (by decide)

/-! ## Language configuration: editing one field -/

/-- C5: `handleChange spec field value` passes to `onChange` a specification whose
`field` is `value` and whose every other field (the six collections, `data_types` and
`comment_syntax` among them) is that of `spec`.  The handler is a function of the value
`spec`, which it only reads: the result is a new value. -/
theorem handleChange_sets_field_keeps_others (spec : LanguageSpec) (field : SpecField)
    (value : field.Value) :
    (handleChange spec field value).get field = value ∧
    ∀ other : SpecField, other ≠ field →
      (handleChange spec field value).get other = spec.get other := by
  cases field <;> refine ⟨rfl, fun other hne => ?_⟩ <;> cases other <;>
    first
      | rfl
      | exact absurd rfl hne

/-- C6: setting a field to any value and then back to the value it had gives back the
specification, field for field. -/
theorem handleChange_then_restore (spec : LanguageSpec) (field : SpecField)
    (value : field.Value) :
    handleChange (handleChange spec field value) field (spec.get field) = spec := by
  cases field <;> rfl

/-! ## Keywords reachable by editing -/

theorem removeByIndex_subset {α : Type} (xs : List α) (index : Nat) (x : α)
    (hx : x ∈ removeByIndex xs index) : x ∈ xs := by
  rw [removeByIndex_eq_eraseIdx] at hx
  exact (List.eraseIdx_sublist xs index).subset hx

theorem KeywordOp.apply_word_ne_nil (keywords : List Keyword) (op : KeywordOp)
    (hall : ∀ k ∈ keywords, k.word ≠ []) :
    ∀ k ∈ KeywordOp.apply keywords op, k.word ≠ [] := by
  cases op with
  | add newKeyword =>
    intro k hk
    simp only [KeywordOp.apply] at hk
    cases hadd : (addKeyword keywords newKeyword).1 with
    | none =>
      rw [hadd] at hk
      exact hall k hk
    | some ys =>
      rw [hadd] at hk
      obtain ⟨htr, rfl⟩ := addKeyword_some keywords ys newKeyword hadd
      simp only [Option.getD_some, List.mem_append, List.mem_singleton] at hk
      rcases hk with hk | hk
      · exact hall k hk
      · subst hk
        exact (truthy_iff _).1 htr
  | remove index =>
    intro k hk
    exact hall k (removeByIndex_subset keywords index k hk)

theorem foldl_keyword_word_ne_nil (ops : List KeywordOp) (keywords : List Keyword)
    (hall : ∀ k ∈ keywords, k.word ≠ []) :
    ∀ k ∈ ops.foldl KeywordOp.apply keywords, k.word ≠ [] := by
  induction ops generalizing keywords with
  | nil => exact hall
  | cons op ops ih =>
    exact ih _ (KeywordOp.apply_word_ne_nil keywords op hall)

/-- C9, as stated, fails: adding the keyword `if` twice is accepted both times, and the
collection then holds the word `if` twice. -/
theorem runKeywordOps_duplicate_word :
    runKeywordOps
      [KeywordOp.add { word := "if".toList, category := [], description := [] },
       KeywordOp.add { word := "if".toList, category := [], description := [] }] =
      [{ word := "if".toList, category := [], description := [] },
       { word := "if".toList, category := [], description := [] }] ∧
    ¬ ((runKeywordOps
      [KeywordOp.add { word := "if".toList, category := [], description := [] },
       KeywordOp.add { word := "if".toList, category := [], description := [] }]).map
        Keyword.word).Nodup := by
  decide

/-- C9, amended: in every keyword collection reached from the empty one by `addKeyword`
and removals by index, every keyword has a non-empty `word`. -/
theorem runKeywordOps_word_ne_nil (ops : List KeywordOp) (k : Keyword)
    (hk : k ∈ runKeywordOps ops) : k.word ≠ [] :=
  foldl_keyword_word_ne_nil ops [] (by simp) k hk

/-- The keyword `if`, left after adding `let` and `if`, a refused empty draft, and the
removal of the first entry. -/
theorem runKeywordOps_word_ne_nil_witness :
    ({ word := "if".toList, category := [], description := [] } : Keyword) ∈
      runKeywordOps
        [KeywordOp.add { word := "let".toList, category := [], description := [] },
         KeywordOp.add { word := "if".toList, category := [], description := [] },
         KeywordOp.add emptyKeyword,
         KeywordOp.remove 0] ∧
    ({ word := "if".toList, category := [], description := [] } : Keyword).word ≠ [] :=
  ⟨by decide,
    runKeywordOps_word_ne_nil
      [KeywordOp.add { word := "let".toList, category := [], description := [] },
       KeywordOp.add { word := "if".toList, category := [], description := [] },
       KeywordOp.add emptyKeyword,
       KeywordOp.remove 0]
      { word := "if".toList, category := [], description := [] } (by decide)⟩

/-! ## Precedence read with `parseInt` -/

/-- C10 fails on the code: with the number field emptied, `addOperator` and
`addSyntaxRule` accept the draft and store `parseInt("")`, which is `NaN`, as the
`precedence`; with the reset text `0` they store the integer 0. -/
theorem add_precedence_nan_on_empty_text :
    (addOperator []
        { symbol := ['+'], precedence := [], associativity := "left".toList,
          operation_type := [], implementation := [] }).1 =
      some [{ symbol := ['+'], precedence := JSInt.nan, associativity := "left".toList,
              operation_type := [], implementation := [] }] ∧
    (addSyntaxRule []
        { rule_type := "statement".toList, pattern := ['e'], tokens := [],
          precedence := [], associativity := "left".toList }).1 =
      some [{ rule_type := "statement".toList, pattern := ['e'], tokens := [],
              precedence := JSInt.nan, associativity := "left".toList }] ∧
    JSInt.nan.isFiniteInteger = false ∧
    parseInt ['0'] = JSInt.int 0 := by
  decide

/-! ## Node ids of grammar rules -/

theorem digitValue_digitChar (d : Nat) (hd : d < 10) : digitValue (digitChar d) = some d := by
  revert d
  decide

theorem digitsValue_append_singleton (radix : Nat) (ds : JSString) (c : Char) :
    digitsValue radix (ds ++ [c]) = radix * digitsValue radix ds + (digitValue c).getD 0 := by
  simp [digitsValue, List.foldl_append]

theorem digitsValue_decimalDigits (fuel n : Nat) (hfuel : n < fuel) :
    digitsValue 10 (decimalDigits fuel n) = n := by
  induction fuel generalizing n with
  | zero => omega
  | succ fuel ih =>
    unfold decimalDigits
    split_ifs with hn
    · simp [digitsValue, digitValue_digitChar n hn]
    · rw [digitsValue_append_singleton, ih (n / 10) (by omega),
        digitValue_digitChar (n % 10) (by omega)]
      simp only [Option.getD_some]
      omega

theorem numberToString_injective (a b : Nat) (h : numberToString a = numberToString b) :
    a = b := by
  have ha := digitsValue_decimalDigits (a + 1) a (by omega)
  have hb := digitsValue_decimalDigits (b + 1) b (by omega)
  unfold numberToString at h
  rw [h] at ha
  omega

theorem nodeIdAt_injective (a b : Nat) (h : nodeIdAt a = nodeIdAt b) : a = b :=
  numberToString_injective a b (List.append_cancel_left h)

/-- One step keeps the node ids it found, in order, and adds at most the id it assigns. -/
theorem GrammarOp.apply_ids_sublist (st : GrammarState) (op : GrammarOp) :
    List.Sublist ((GrammarOp.apply st op).grammarRules.map GrammarRule.node_id)
      (st.grammarRules.map GrammarRule.node_id ++ (op.assignedAt.toList.map nodeIdAt)) := by
  cases op with
  | add editingRule now rand1 rand2 =>
    simp only [GrammarOp.apply, GrammarOp.assignedAt, addGrammarRule]
    split_ifs with h
    · simp
    · simp
  | delete ruleId =>
    simp only [GrammarOp.apply, GrammarOp.assignedAt, deleteRule, Option.getD_some,
      Option.toList, List.map_nil, List.append_nil]
    exact List.Sublist.map _ (List.filter_sublist _)

theorem foldl_grammar_ids_sublist (ops : List GrammarOp) (st : GrammarState) :
    List.Sublist ((ops.foldl GrammarOp.apply st).grammarRules.map GrammarRule.node_id)
      (st.grammarRules.map GrammarRule.node_id ++
        ((ops.filterMap GrammarOp.assignedAt).map nodeIdAt)) := by
  induction ops generalizing st with
  | nil => simp
  | cons op ops ih =>
    have h1 := ih (GrammarOp.apply st op)
    have h2 := GrammarOp.apply_ids_sublist st op
    have h3 := h1.trans (List.Sublist.append_right h2 _)
    rw [List.append_assoc] at h3
    cases hop : op.assignedAt with
    | none =>
      rw [hop] at h3
      simpa [List.filterMap_cons, hop] using h3
    | some t =>
      rw [hop] at h3
      simpa [List.filterMap_cons, hop] using h3

theorem runGrammarOps_ids_sublist (ops : List GrammarOp) :
    List.Sublist ((runGrammarOps ops).grammarRules.map GrammarRule.node_id)
      ((ops.filterMap GrammarOp.assignedAt).map nodeIdAt) := by
  simpa [runGrammarOps] using
    foldl_grammar_ids_sublist ops { grammarRules := [], nodes := [] }

theorem assignedAt_add_accepted (editingRule : EditingRule) (now : Nat) (rand1 rand2 : Coord)
    (hname : editingRule.name ≠ []) (hpattern : editingRule.pattern ≠ []) :
    (GrammarOp.add editingRule now rand1 rand2).assignedAt = some now := by
  simp [GrammarOp.assignedAt, (truthy_iff _).2 hname, (truthy_iff _).2 hpattern]

/-- C4, as stated, fails: with the same clock reading 5 at two accepted adds, the list
holds two rules with the node id `node-5`; and after `node-5` is deleted, an add at the
clock reading 5 assigns `node-5` again. -/
theorem runGrammarOps_duplicate_node_id :
    ((runGrammarOps
      [GrammarOp.add { name := ['e'], pattern := ['t'], description := [] } 5 0 0,
       GrammarOp.add { name := ['t'], pattern := ['f'], description := [] } 5 0 0]
      ).grammarRules.map GrammarRule.node_id) = [nodeIdAt 5, nodeIdAt 5] ∧
    ¬ ((runGrammarOps
      [GrammarOp.add { name := ['e'], pattern := ['t'], description := [] } 5 0 0,
       GrammarOp.add { name := ['t'], pattern := ['f'], description := [] } 5 0 0]
      ).grammarRules.map GrammarRule.node_id).Nodup ∧
    ((runGrammarOps
      [GrammarOp.add { name := ['e'], pattern := ['t'], description := [] } 5 0 0,
       GrammarOp.delete (nodeIdAt 5)]).grammarRules.map GrammarRule.node_id) = [] ∧
    ((runGrammarOps
      [GrammarOp.add { name := ['e'], pattern := ['t'], description := [] } 5 0 0,
       GrammarOp.delete (nodeIdAt 5),
       GrammarOp.add { name := ['t'], pattern := ['f'], description := [] } 5 0 0]
      ).grammarRules.map GrammarRule.node_id) = [nodeIdAt 5] := by
  decide

/-- C4, amended: when the clock readings taken by the accepted adds of a sequence of
`addGrammarRule` and `deleteRule` steps are pairwise distinct, the node ids of the rules
of the list reached are pairwise distinct, and the node id an accepted add assigns is
the node id of no rule that was in the list at any earlier point, removed or not. -/
theorem runGrammarOps_node_ids_distinct (ops : List GrammarOp)
    (hclock : (ops.filterMap GrammarOp.assignedAt).Nodup) :
    ((runGrammarOps ops).grammarRules.map GrammarRule.node_id).Nodup ∧
    ∀ (pre post : List GrammarOp) (editingRule : EditingRule) (now : Nat)
      (rand1 rand2 : Coord),
      ops = pre ++ GrammarOp.add editingRule now rand1 rand2 :: post →
      editingRule.name ≠ [] → editingRule.pattern ≠ [] →
      ∀ (k : Nat), ∀ r ∈ (runGrammarOps (pre.take k)).grammarRules,
        r.node_id ≠ nodeIdAt now := by
  constructor
  · apply List.Nodup.sublist (runGrammarOps_ids_sublist ops)
    exact List.Nodup.map (fun a b h => nodeIdAt_injective a b h) hclock
  · intro pre post editingRule now rand1 rand2 hops hname hpattern k r hr heq
    have hsub := (runGrammarOps_ids_sublist (pre.take k)).subset
      (List.mem_map_of_mem GrammarRule.node_id hr)
    rw [heq] at hsub
    obtain ⟨t, ht, hid⟩ := List.mem_map.1 hsub
    have htnow : t = now := nodeIdAt_injective t now hid
    subst htnow
    have hpre : t ∈ pre.filterMap GrammarOp.assignedAt :=
      ((List.take_sublist k pre).filterMap _).subset ht
    rw [hops, List.filterMap_append, List.filterMap_cons,
      assignedAt_add_accepted editingRule t rand1 rand2 hname hpattern] at hclock
    have := (List.nodup_append.1 hclock).2.2 hpre (List.mem_cons_self _ _)
    exact this

/-- Three accepted adds at the clock readings 1, 2, 3 with a deletion in between. -/
theorem runGrammarOps_node_ids_distinct_witness :
    ([GrammarOp.add { name := ['e'], pattern := ['t'], description := [] } 1 0 0,
      GrammarOp.add { name := ['t'], pattern := ['f'], description := [] } 2 0 0,
      GrammarOp.delete (nodeIdAt 1),
      GrammarOp.add { name := ['f'], pattern := ['n'], description := [] } 3 0 0
      ].filterMap GrammarOp.assignedAt).Nodup ∧
    ((runGrammarOps
      [GrammarOp.add { name := ['e'], pattern := ['t'], description := [] } 1 0 0,
       GrammarOp.add { name := ['t'], pattern := ['f'], description := [] } 2 0 0,
       GrammarOp.delete (nodeIdAt 1),
       GrammarOp.add { name := ['f'], pattern := ['n'], description := [] } 3 0 0]
      ).grammarRules.map GrammarRule.node_id).Nodup :=
  ⟨by decide,
    (runGrammarOps_node_ids_distinct
      [GrammarOp.add { name := ['e'], pattern := ['t'], description := [] } 1 0 0,
       GrammarOp.add { name := ['t'], pattern := ['f'], description := [] } 2 0 0,
       GrammarOp.delete (nodeIdAt 1),
       GrammarOp.add { name := ['f'], pattern := ['n'], description := [] } 3 0 0]
      (by decide)).1⟩

/-! ## Save and Generate: what reaches the collaborator -/

theorem run_singleton_call (st : AppState) (request : ApiCall) :
    st.run [Effect.call request] = st := rfl

theorem clickSave_apply (s : Session) :
    (AppEvent.apply s AppEvent.clickSave).log =
        s.log ++ [Effect.call (api.saveLanguage s.app.languageSpec)] ∧
      (AppEvent.apply s AppEvent.clickSave).app = s.app ∧
      (AppEvent.apply s AppEvent.clickSave).pending =
        s.pending ++ [Pending.save s.app.languageSpec] :=
  ⟨rfl, rfl, rfl⟩

theorem clickGenerate_apply_enabled (s : Session) (henabled : generateDisabled s.app = false) :
    (AppEvent.apply s AppEvent.clickGenerate).log =
        s.log ++ [Effect.setIsGenerating true,
          Effect.call (api.generateLanguage (generateRequest s.app.languageSpec))] ∧
      (AppEvent.apply s AppEvent.clickGenerate).pending =
        s.pending ++ [Pending.generate (generateRequest s.app.languageSpec)] ∧
      (AppEvent.apply s AppEvent.clickGenerate).app.isGenerating = true := by
  simp only [AppEvent.apply, henabled]
  exact ⟨rfl, rfl, rfl⟩

/-- C11 fails on the code: in the initial application, whose specification has the
empty name, a click on "Save Spec" runs `handleSave`, whose only effect before its
`await` is the call `api.saveLanguage(languageSpec)`; nothing is reported first.  The
Generate button of the same state is disabled by the empty name. -/
theorem handleSave_empty_name_calls_saveLanguage :
    initialLanguageSpec.name = [] ∧
    handleSaveStart initialLanguageSpec =
      [Effect.call (api.saveLanguage initialLanguageSpec)] ∧
    (runSession [AppEvent.clickSave]).log =
      [Effect.call
        { method := HttpMethod.post, path := "/api/languages".toList,
          body := Body.spec initialLanguageSpec, responseType := none }] ∧
    generateDisabled initialAppState = true ∧
    (runSession [AppEvent.clickGenerate]).log = [] := by
  decide

/-- C12, as stated, fails: with the keyword `if` entered twice, a click on "Save Spec"
sends the specification, both keywords included, to `api.saveLanguage`, and nothing
else is done or reported before the call. -/
theorem handleSave_duplicate_keyword_sent :
    hasDuplicateKeyword
      (handleChange initialLanguageSpec SpecField.keywords
        [{ word := "if".toList, category := [], description := [] },
         { word := "if".toList, category := [], description := [] }]) ∧
    (runSession
      [AppEvent.change SpecField.keywords
        [{ word := "if".toList, category := [], description := [] },
         { word := "if".toList, category := [], description := [] }],
       AppEvent.clickSave]).log =
      [Effect.setLanguageSpec
        (handleChange initialLanguageSpec SpecField.keywords
          [{ word := "if".toList, category := [], description := [] },
           { word := "if".toList, category := [], description := [] }]),
       Effect.call (api.saveLanguage
        (handleChange initialLanguageSpec SpecField.keywords
          [{ word := "if".toList, category := [], description := [] },
           { word := "if".toList, category := [], description := [] }]))] := by
  unfold hasDuplicateKeyword
  decide

/-- C12, amended: for every specification holding two keywords with the same `word`,
a click on "Save Spec" reports no `DuplicateKeyword`: the one thing `handleSave` does
before its `await` is to call `api.saveLanguage` with the specification as it is, which
is left unchanged. -/
theorem clickSave_duplicate_keyword_calls_saveLanguage (s : Session)
    (_hdup : hasDuplicateKeyword s.app.languageSpec) :
    (AppEvent.apply s AppEvent.clickSave).log =
        s.log ++ [Effect.call (api.saveLanguage s.app.languageSpec)] ∧
      (AppEvent.apply s AppEvent.clickSave).app = s.app ∧
      (api.saveLanguage s.app.languageSpec).body = Body.spec s.app.languageSpec :=
  ⟨(clickSave_apply s).1, (clickSave_apply s).2.1, rfl⟩

/-- A session whose specification holds the keyword `if` twice. -/
theorem clickSave_duplicate_keyword_calls_saveLanguage_witness :
    hasDuplicateKeyword
      (runSession
        [AppEvent.change SpecField.keywords
          [{ word := "if".toList, category := [], description := [] },
           { word := "if".toList, category := [], description := [] }]]).app.languageSpec ∧
    (AppEvent.apply
      (runSession
        [AppEvent.change SpecField.keywords
          [{ word := "if".toList, category := [], description := [] },
           { word := "if".toList, category := [], description := [] }]])
      AppEvent.clickSave).app =
    (runSession
        [AppEvent.change SpecField.keywords
          [{ word := "if".toList, category := [], description := [] },
           { word := "if".toList, category := [], description := [] }]]).app :=
  ⟨by unfold hasDuplicateKeyword; decide,
    (clickSave_duplicate_keyword_calls_saveLanguage
      (runSession
        [AppEvent.change SpecField.keywords
          [{ word := "if".toList, category := [], description := [] },
           { word := "if".toList, category := [], description := [] }]])
      (by unfold hasDuplicateKeyword; decide)).2.1⟩

/-- C13, as stated, fails: for the specification `Mini`, whose only unresolved token is
`*`, a click on "Generate Language" is not refused; `handleGenerate` calls
`api.generateLanguage` with the specification, and shows no message before the call. -/
theorem handleGenerate_unresolved_token_sent :
    (runSession miniEvents).app.languageSpec = miniSpec ∧
    unresolvedTokens miniSpec = [['*']] ∧
    apiCalls (runSession (miniEvents ++ [AppEvent.clickGenerate])).log =
      [api.generateLanguage (generateRequest miniSpec)] ∧
    (runSession (miniEvents ++ [AppEvent.clickGenerate])).log.drop 4 =
      [Effect.setIsGenerating true,
       Effect.call (api.generateLanguage (generateRequest miniSpec))] := by
  decide

/-- C13, amended: for every specification in which a syntax rule has a token that is
neither a keyword `word` nor an operator `symbol`, a click on the enabled Generate
button (non-empty name, no generation in progress) makes `handleGenerate` call
`api.generateLanguage` with that specification, and a click on "Save Spec" makes
`handleSave` call `api.saveLanguage` with it; neither reports an unresolved token. -/
theorem clickGenerate_unresolved_token_calls_generateLanguage (s : Session)
    (_hunresolved : unresolvedTokens s.app.languageSpec ≠ [])
    (henabled : generateDisabled s.app = false) :
    (AppEvent.apply s AppEvent.clickGenerate).log =
        s.log ++ [Effect.setIsGenerating true,
          Effect.call (api.generateLanguage (generateRequest s.app.languageSpec))] ∧
      (generateRequest s.app.languageSpec).specification = s.app.languageSpec ∧
      (AppEvent.apply s AppEvent.clickSave).log =
        s.log ++ [Effect.call (api.saveLanguage s.app.languageSpec)] :=
  ⟨(clickGenerate_apply_enabled s henabled).1, rfl, (clickSave_apply s).1⟩

/-- The session in which `Mini` has been entered. -/
theorem clickGenerate_unresolved_token_calls_generateLanguage_witness :
    unresolvedTokens (runSession miniEvents).app.languageSpec ≠ [] ∧
    generateDisabled (runSession miniEvents).app = false ∧
    (AppEvent.apply (runSession miniEvents) AppEvent.clickGenerate).log =
      (runSession miniEvents).log ++ [Effect.setIsGenerating true,
        Effect.call (api.generateLanguage
          (generateRequest (runSession miniEvents).app.languageSpec))] :=
  ⟨by decide, by decide,
    (clickGenerate_unresolved_token_calls_generateLanguage (runSession miniEvents)
      (by decide) (by decide)).1⟩

/-! ## Generate requests in flight -/

theorem length_filterMap_eraseIdx {α β : Type} (f : α → Option β) (l : List α) (i : Nat)
    (a : α) (h : l[i]? = some a) :
    ((l.eraseIdx i).filterMap f).length + (if (f a).isSome then 1 else 0) =
      (l.filterMap f).length := by
  induction l generalizing i with
  | nil => simp at h
  | cons x xs ih =>
    cases i with
    | zero =>
      simp only [List.getElem?_cons_zero, Option.some.injEq] at h
      subst h
      cases hx : f x <;> simp [List.filterMap_cons, hx]
    | succ j =>
      simp only [List.getElem?_cons_succ] at h
      have := ih j h
      cases hx : f x <;> simp [List.filterMap_cons, hx] <;> omega

theorem generatesInFlight_append_save (s : Session) (languageSpec : LanguageSpec) :
    (s.pending ++ [Pending.save languageSpec]).filterMap
        (fun p => match p with | Pending.generate request => some request | _ => none) =
      s.generatesInFlight := by
  simp [Session.generatesInFlight, List.filterMap_append]

theorem generatesInFlight_append_download (s : Session) (languageSpec : LanguageSpec) :
    (s.pending ++ [Pending.download languageSpec]).filterMap
        (fun p => match p with | Pending.generate request => some request | _ => none) =
      s.generatesInFlight := by
  simp [Session.generatesInFlight, List.filterMap_append]

theorem run_handleSaveFinish_isGenerating (st : AppState) (outcome : Outcome Unit) :
    (st.run (handleSaveFinish outcome)).isGenerating = st.isGenerating := by
  cases outcome <;> rfl

theorem run_handleDownloadFinish_isGenerating (st : AppState) (languageSpec : LanguageSpec)
    (outcome : Outcome Blob) :
    (st.run (handleDownloadFinish languageSpec outcome)).isGenerating = st.isGenerating := by
  cases outcome <;> rfl

theorem run_handleGenerateFinish_isGenerating (st : AppState)
    (outcome : Outcome (Option GenerationResult)) :
    (st.run (handleGenerateFinish outcome)).isGenerating = false := by
  cases outcome <;> rfl

theorem apply_clickGenerate_disabled (s : Session) (h : generateDisabled s.app = true) :
    AppEvent.apply s AppEvent.clickGenerate = s := by
  simp [AppEvent.apply, h]

theorem apply_clickGenerate_enabled (s : Session) (h : generateDisabled s.app = false) :
    AppEvent.apply s AppEvent.clickGenerate = dispatchGenerate s := by
  simp [AppEvent.apply, h]

theorem apply_clickDownload_offered (s : Session) (h : downloadOffered s.app = true) :
    AppEvent.apply s AppEvent.clickDownload = dispatchDownload s := by
  simp [AppEvent.apply, h]

theorem apply_clickDownload_absent (s : Session) (h : downloadOffered s.app = false) :
    AppEvent.apply s AppEvent.clickDownload = s := by
  simp [AppEvent.apply, h]

theorem apply_saveEnds_cases (s : Session) (index : Nat) (outcome : Outcome Unit) :
    (∃ languageSpec, s.pending[index]? = some (Pending.save languageSpec) ∧
      AppEvent.apply s (AppEvent.saveEnds index outcome) =
        { s.perform (handleSaveFinish outcome) with pending := s.pending.eraseIdx index }) ∨
    AppEvent.apply s (AppEvent.saveEnds index outcome) = s := by
  obtain ⟨x, hx⟩ : ∃ x, s.pending[index]? = x := ⟨_, rfl⟩
  rcases x with _ | (request | languageSpec | languageSpec)
  · right; simp [AppEvent.apply, hx]
  · right; simp [AppEvent.apply, hx]
  · left; exact ⟨languageSpec, hx, by simp [AppEvent.apply, hx]⟩
  · right; simp [AppEvent.apply, hx]

theorem apply_downloadEnds_cases (s : Session) (index : Nat) (outcome : Outcome Blob) :
    (∃ languageSpec, s.pending[index]? = some (Pending.download languageSpec) ∧
      AppEvent.apply s (AppEvent.downloadEnds index outcome) =
        { s.perform (handleDownloadFinish languageSpec outcome) with
          pending := s.pending.eraseIdx index }) ∨
    AppEvent.apply s (AppEvent.downloadEnds index outcome) = s := by
  obtain ⟨x, hx⟩ : ∃ x, s.pending[index]? = x := ⟨_, rfl⟩
  rcases x with _ | (request | languageSpec | languageSpec)
  · right; simp [AppEvent.apply, hx]
  · right; simp [AppEvent.apply, hx]
  · right; simp [AppEvent.apply, hx]
  · left; exact ⟨languageSpec, hx, by simp [AppEvent.apply, hx]⟩

theorem apply_generateEnds_cases (s : Session) (index : Nat)
    (outcome : Outcome (Option GenerationResult)) :
    (∃ request, s.pending[index]? = some (Pending.generate request) ∧
      AppEvent.apply s (AppEvent.generateEnds index outcome) =
        { s.perform (handleGenerateFinish outcome) with
          pending := s.pending.eraseIdx index
          succeeded :=
            match outcome with
            | .resolved data => s.succeeded ++ [(request, data)]
            | .rejected _ => s.succeeded }) ∨
    AppEvent.apply s (AppEvent.generateEnds index outcome) = s := by
  obtain ⟨x, hx⟩ : ∃ x, s.pending[index]? = x := ⟨_, rfl⟩
  rcases x with _ | (request | languageSpec | languageSpec)
  · right; simp [AppEvent.apply, hx]
  · left; exact ⟨request, hx, by simp [AppEvent.apply, hx]⟩
  · right; simp [AppEvent.apply, hx]
  · right; simp [AppEvent.apply, hx]

/-- One event keeps the number of generate requests in flight equal to 1 while
`isGenerating` is set and to 0 otherwise. -/
theorem AppEvent.apply_inFlight (s : Session) (e : AppEvent)
    (h : s.generatesInFlight.length = if s.app.isGenerating = true then 1 else 0) :
    (AppEvent.apply s e).generatesInFlight.length =
      if (AppEvent.apply s e).app.isGenerating = true then 1 else 0 := by
  cases e with
  | change field value => exact h
  | clickSave =>
    show ((s.pending ++ [Pending.save s.app.languageSpec]).filterMap _).length = _
    rw [generatesInFlight_append_save]
    exact h
  | clickGenerate =>
    rcases Bool.eq_false_or_eq_true (generateDisabled s.app) with hd | hd
    · rw [apply_clickGenerate_disabled s hd]
      exact h
    · rw [apply_clickGenerate_enabled s hd]
      have hgen : s.app.isGenerating = false := by
        cases hg : s.app.isGenerating with
        | false => rfl
        | true => simp [generateDisabled, hg] at hd
      rw [hgen] at h
      have h0 : (s.pending.filterMap
          (fun p => match p with | Pending.generate request => some request | _ => none)).length
          = 0 := by simpa [Session.generatesInFlight] using h
      show ((s.pending ++ [Pending.generate (generateRequest s.app.languageSpec)]).filterMap
        _).length = if true = true then 1 else 0
      simp [List.filterMap_append, h0]
  | clickDownload =>
    rcases Bool.eq_false_or_eq_true (downloadOffered s.app) with hd | hd
    · rw [apply_clickDownload_offered s hd]
      show ((s.pending ++ [Pending.download s.app.languageSpec]).filterMap _).length = _
      rw [generatesInFlight_append_download]
      exact h
    · rw [apply_clickDownload_absent s hd]
      exact h
  | saveEnds index outcome =>
    rcases apply_saveEnds_cases s index outcome with ⟨languageSpec, hp, heq⟩ | heq
    · rw [heq]
      have hlen := length_filterMap_eraseIdx
        (fun p => match p with | Pending.generate request => some request | _ => none)
        s.pending index _ hp
      simp only [Option.isSome_none, Bool.false_eq_true, if_false, Nat.add_zero] at hlen
      show ((s.pending.eraseIdx index).filterMap _).length =
        if (s.app.run (handleSaveFinish outcome)).isGenerating = true then 1 else 0
      rw [run_handleSaveFinish_isGenerating, hlen]
      exact h
    · rw [heq]
      exact h
  | downloadEnds index outcome =>
    rcases apply_downloadEnds_cases s index outcome with ⟨languageSpec, hp, heq⟩ | heq
    · rw [heq]
      have hlen := length_filterMap_eraseIdx
        (fun p => match p with | Pending.generate request => some request | _ => none)
        s.pending index _ hp
      simp only [Option.isSome_none, Bool.false_eq_true, if_false, Nat.add_zero] at hlen
      show ((s.pending.eraseIdx index).filterMap _).length =
        if (s.app.run (handleDownloadFinish languageSpec outcome)).isGenerating = true
          then 1 else 0
      rw [run_handleDownloadFinish_isGenerating, hlen]
      exact h
    · rw [heq]
      exact h
  | generateEnds index outcome =>
    rcases apply_generateEnds_cases s index outcome with ⟨request, hp, heq⟩ | heq
    · rw [heq]
      have hlen := length_filterMap_eraseIdx
        (fun p => match p with | Pending.generate request => some request | _ => none)
        s.pending index _ hp
      simp only [Option.isSome_some, if_true] at hlen
      show ((s.pending.eraseIdx index).filterMap _).length =
        if (s.app.run (handleGenerateFinish outcome)).isGenerating = true then 1 else 0
      rw [run_handleGenerateFinish_isGenerating]
      simp only [Bool.false_eq_true, if_false]
      have hle : (s.pending.filterMap
          (fun p => match p with | Pending.generate request => some request | _ => none)
          ).length ≤ 1 := by
        have : s.generatesInFlight.length ≤ 1 := by
          rw [h]
          split_ifs <;> omega
        simpa [Session.generatesInFlight] using this
      omega
    · rw [heq]
      exact h

theorem foldl_inFlight (events : List AppEvent) (s : Session)
    (h : s.generatesInFlight.length = if s.app.isGenerating = true then 1 else 0) :
    (events.foldl AppEvent.apply s).generatesInFlight.length =
      if (events.foldl AppEvent.apply s).app.isGenerating = true then 1 else 0 := by
  induction events generalizing s with
  | nil => exact h
  | cons e es ih => exact ih _ (AppEvent.apply_inFlight s e h)

theorem runSession_inFlight (events : List AppEvent) :
    (runSession events).generatesInFlight.length =
      if (runSession events).app.isGenerating = true then 1 else 0 :=
  foldl_inFlight events initialSession (by decide)

/-- C14, as stated, fails: with the request of a first click on Generate for `Mini` in
flight, a second click in immediate succession does not fail with
`GenerationInProgress`.  The click changes nothing: the session after it is the session
before it, and what the two clicks did is one `setIsGenerating(true)` and one call of
`api.generateLanguage`, with no alert and no console error anywhere in the log. -/
theorem second_generate_click_reports_nothing :
    (runSession (miniEvents ++ [AppEvent.clickGenerate])).generatesInFlight =
      [generateRequest miniSpec] ∧
    runSession (miniEvents ++ [AppEvent.clickGenerate, AppEvent.clickGenerate]) =
      runSession (miniEvents ++ [AppEvent.clickGenerate]) ∧
    (runSession (miniEvents ++ [AppEvent.clickGenerate, AppEvent.clickGenerate])).log.drop 4 =
      [Effect.setIsGenerating true,
       Effect.call (api.generateLanguage (generateRequest miniSpec))] ∧
    reports (runSession (miniEvents ++ [AppEvent.clickGenerate, AppEvent.clickGenerate])).log
      = [] := by
  decide

/-- C14, amended: in every session driven through the buttons and editors, at most
one generate request is in flight, whatever the names; and while one is in flight the
Generate button is disabled, so a click on it does not reach `handleGenerate`: the
session stays as it is, nothing is reported and `api.generateLanguage` is not called
again. -/
theorem runSession_at_most_one_generate_in_flight (events : List AppEvent) :
    (runSession events).generatesInFlight.length ≤ 1 ∧
    ((runSession events).generatesInFlight ≠ [] →
      generateDisabled (runSession events).app = true ∧
      AppEvent.apply (runSession events) AppEvent.clickGenerate = runSession events) := by
  have h := runSession_inFlight events
  constructor
  · rw [h]
    split_ifs <;> omega
  · intro hne
    have hgen : (runSession events).app.isGenerating = true := by
      cases hg : (runSession events).app.isGenerating with
      | true => rfl
      | false =>
        rw [hg] at h
        simp only [Bool.false_eq_true, if_false, List.length_eq_zero] at h
        exact absurd h hne
    have hd : generateDisabled (runSession events).app = true := by
      simp [generateDisabled, hgen]
    exact ⟨hd, apply_clickGenerate_disabled _ hd⟩

/-- Two clicks on Generate for `Mini` in immediate succession: the second is not
delivered. -/
theorem runSession_at_most_one_generate_in_flight_witness :
    (runSession (miniEvents ++ [AppEvent.clickGenerate])).generatesInFlight ≠ [] ∧
    AppEvent.apply (runSession (miniEvents ++ [AppEvent.clickGenerate]))
        AppEvent.clickGenerate =
      runSession (miniEvents ++ [AppEvent.clickGenerate]) ∧
    apiCalls (runSession (miniEvents ++ [AppEvent.clickGenerate, AppEvent.clickGenerate])).log =
      [api.generateLanguage (generateRequest miniSpec)] :=
  ⟨by decide,
    ((runSession_at_most_one_generate_in_flight
      (miniEvents ++ [AppEvent.clickGenerate])).2 (by decide)).2,
    by decide⟩

/-! ## The marker `isGenerating` -/

/-- C15: in `handleGenerate`, `isGenerating` is set to true before
`api.generateLanguage` is called (no call of the client comes before, and the state
after the effects that precede the call has the marker set), and after the handler has
finished the marker is false, whether the call resolved or was rejected and whatever
happened to the state in between. -/
theorem handleGenerate_isGenerating_bracket (languageSpec : LanguageSpec)
    (st afterAwait : AppState) (outcome : Outcome (Option GenerationResult)) :
    (∃ before after,
      handleGenerateStart languageSpec =
        before ++ Effect.call (api.generateLanguage (generateRequest languageSpec)) :: after ∧
      apiCalls before = [] ∧ (st.run before).isGenerating = true) ∧
    (afterAwait.run (handleGenerateFinish outcome)).isGenerating = false ∧
    (st.run (handleGenerateStart languageSpec ++ handleGenerateFinish outcome)).isGenerating
      = false := by
  refine ⟨⟨[Effect.setIsGenerating true], [], rfl, rfl, rfl⟩,
    run_handleGenerateFinish_isGenerating _ _, ?_⟩
  cases outcome <;> rfl

/-! ## The handlers leave the specification alone -/

theorem run_handleSaveFinish_languageSpec (st : AppState) (outcome : Outcome Unit) :
    (st.run (handleSaveFinish outcome)).languageSpec = st.languageSpec := by
  cases outcome <;> rfl

theorem run_handleGenerateFinish_languageSpec (st : AppState)
    (outcome : Outcome (Option GenerationResult)) :
    (st.run (handleGenerateFinish outcome)).languageSpec = st.languageSpec := by
  cases outcome <;> rfl

theorem run_handleDownloadFinish_languageSpec (st : AppState) (languageSpec : LanguageSpec)
    (outcome : Outcome Blob) :
    (st.run (handleDownloadFinish languageSpec outcome)).languageSpec = st.languageSpec := by
  cases outcome <;> rfl

/-- Every event but an edit leaves `languageSpec` as it is. -/
theorem AppEvent.apply_languageSpec (s : Session) (e : AppEvent)
    (hedit : ∀ field value, e ≠ AppEvent.change field value) :
    (AppEvent.apply s e).app.languageSpec = s.app.languageSpec := by
  cases e with
  | change field value => exact absurd rfl (hedit field value)
  | clickSave => rfl
  | clickGenerate =>
    rcases Bool.eq_false_or_eq_true (generateDisabled s.app) with hd | hd
    · rw [apply_clickGenerate_disabled s hd]
    · rw [apply_clickGenerate_enabled s hd]
      rfl
  | clickDownload =>
    rcases Bool.eq_false_or_eq_true (downloadOffered s.app) with hd | hd
    · rw [apply_clickDownload_offered s hd]
      rfl
    · rw [apply_clickDownload_absent s hd]
  | saveEnds index outcome =>
    rcases apply_saveEnds_cases s index outcome with ⟨languageSpec, _, heq⟩ | heq
    · rw [heq]
      exact run_handleSaveFinish_languageSpec _ _
    · rw [heq]
  | downloadEnds index outcome =>
    rcases apply_downloadEnds_cases s index outcome with ⟨languageSpec, _, heq⟩ | heq
    · rw [heq]
      exact run_handleDownloadFinish_languageSpec _ _ _
    · rw [heq]
  | generateEnds index outcome =>
    rcases apply_generateEnds_cases s index outcome with ⟨request, _, heq⟩ | heq
    · rw [heq]
      exact run_handleGenerateFinish_languageSpec _ _
    · rw [heq]

/-- C16: the effects of `handleSave`, `handleGenerate` and `handleDownload`, before
and after their `await` and for either outcome of the call, leave `languageSpec` as it
is; when `api.generateLanguage` is rejected, `handleGenerate` leaves `generatedResult`
as it is; and in a session, every click and every end of a call leaves `languageSpec`
as it is. -/
theorem handlers_keep_languageSpec (st : AppState) (languageSpec : LanguageSpec)
    (saveOutcome : Outcome Unit) (generateOutcome : Outcome (Option GenerationResult))
    (downloadOutcome : Outcome Blob) (error : ApiError) :
    (st.run (handleSaveStart languageSpec)).languageSpec = st.languageSpec ∧
    (st.run (handleSaveFinish saveOutcome)).languageSpec = st.languageSpec ∧
    (st.run (handleGenerateStart languageSpec)).languageSpec = st.languageSpec ∧
    (st.run (handleGenerateFinish generateOutcome)).languageSpec = st.languageSpec ∧
    (st.run (handleDownloadStart languageSpec)).languageSpec = st.languageSpec ∧
    (st.run (handleDownloadFinish languageSpec downloadOutcome)).languageSpec
      = st.languageSpec ∧
    (st.run (handleGenerateStart languageSpec ++
      handleGenerateFinish (Outcome.rejected error))).generatedResult
      = st.generatedResult ∧
    (∀ (s : Session) (e : AppEvent), (∀ field value, e ≠ AppEvent.change field value) →
      (AppEvent.apply s e).app.languageSpec = s.app.languageSpec) :=
  ⟨rfl, run_handleSaveFinish_languageSpec _ _, rfl,
    run_handleGenerateFinish_languageSpec _ _, rfl,
    run_handleDownloadFinish_languageSpec _ _ _, rfl,
    fun s e hedit => AppEvent.apply_languageSpec s e hedit⟩

/-! ## Download is offered after a generation succeeded -/

theorem run_handleSaveFinish_generatedResult (st : AppState) (outcome : Outcome Unit) :
    (st.run (handleSaveFinish outcome)).generatedResult = st.generatedResult := by
  cases outcome <;> rfl

theorem run_handleDownloadFinish_generatedResult (st : AppState)
    (languageSpec : LanguageSpec) (outcome : Outcome Blob) :
    (st.run (handleDownloadFinish languageSpec outcome)).generatedResult
      = st.generatedResult := by
  cases outcome <;> rfl

/-- A session that performs further effects, keeps `generatedResult` and the requests
that resolved, and whose generate requests in flight were already in flight, keeps its
history in order. -/
theorem Session.HistoryOk.of_frame (s t : Session) (effects : List Effect)
    (h : s.HistoryOk) (hlog : t.log = s.log ++ effects)
    (hresult : t.app.generatedResult = s.app.generatedResult)
    (hsucceeded : t.succeeded = s.succeeded)
    (hpending : ∀ request, Pending.generate request ∈ t.pending →
      Pending.generate request ∈ s.pending) : t.HistoryOk := by
  obtain ⟨ha, hb, hc⟩ := h
  refine ⟨?_, ?_, ?_⟩
  · intro result hr
    rw [hresult] at hr
    rw [hsucceeded]
    exact ha result hr
  · intro p hp
    rw [hsucceeded] at hp
    rw [hlog]
    exact ⟨(hb p hp).1, List.mem_append_left _ (hb p hp).2⟩
  · intro request hreq
    rw [hlog]
    exact ⟨(hc request (hpending request hreq)).1,
      List.mem_append_left _ (hc request (hpending request hreq)).2⟩

theorem AppEvent.apply_historyOk (s : Session) (e : AppEvent) (h : s.HistoryOk) :
    (AppEvent.apply s e).HistoryOk := by
  cases e with
  | change field value =>
    exact Session.HistoryOk.of_frame s _ _ h rfl rfl rfl (fun _ hreq => hreq)
  | clickSave =>
    refine Session.HistoryOk.of_frame s _ _ h rfl rfl rfl (fun request hreq => ?_)
    have : Pending.generate request ∈ s.pending ++ [Pending.save s.app.languageSpec] := hreq
    simpa using this
  | clickDownload =>
    rcases Bool.eq_false_or_eq_true (downloadOffered s.app) with hd | hd
    · rw [apply_clickDownload_offered s hd]
      refine Session.HistoryOk.of_frame s _ _ h rfl rfl rfl (fun request hreq => ?_)
      have : Pending.generate request ∈ s.pending ++ [Pending.download s.app.languageSpec] :=
        hreq
      simpa using this
    · rw [apply_clickDownload_absent s hd]
      exact h
  | saveEnds index outcome =>
    rcases apply_saveEnds_cases s index outcome with ⟨languageSpec, _, heq⟩ | heq
    · rw [heq]
      exact Session.HistoryOk.of_frame s _ (handleSaveFinish outcome) h rfl
        (run_handleSaveFinish_generatedResult _ _) rfl
        (fun _ hreq => List.mem_of_mem_eraseIdx hreq)
    · rw [heq]
      exact h
  | downloadEnds index outcome =>
    rcases apply_downloadEnds_cases s index outcome with ⟨languageSpec, _, heq⟩ | heq
    · rw [heq]
      exact Session.HistoryOk.of_frame s _ (handleDownloadFinish languageSpec outcome) h rfl
        (run_handleDownloadFinish_generatedResult _ _ _) rfl
        (fun _ hreq => List.mem_of_mem_eraseIdx hreq)
    · rw [heq]
      exact h
  | clickGenerate =>
    rcases Bool.eq_false_or_eq_true (generateDisabled s.app) with hd | hd
    · rw [apply_clickGenerate_disabled s hd]
      exact h
    · rw [apply_clickGenerate_enabled s hd]
      obtain ⟨ha, hb, hc⟩ := h
      have hname : s.app.languageSpec.name ≠ [] := by
        apply (truthy_iff _).1
        cases ht : truthy s.app.languageSpec.name with
        | true => rfl
        | false => simp [generateDisabled, ht] at hd
      refine ⟨ha, ?_, ?_⟩
      · intro p hp
        exact ⟨(hb p hp).1, List.mem_append_left _ (hb p hp).2⟩
      · intro request hreq
        have hmem : Pending.generate request ∈
            s.pending ++ [Pending.generate (generateRequest s.app.languageSpec)] := hreq
        rcases List.mem_append.1 hmem with hold | hnew
        · exact ⟨(hc request hold).1, List.mem_append_left _ (hc request hold).2⟩
        · simp only [List.mem_singleton, Pending.generate.injEq] at hnew
          subst hnew
          refine ⟨hname, ?_⟩
          show _ ∈ s.log ++ handleGenerateStart s.app.languageSpec
          simp [handleGenerateStart]
  | generateEnds index outcome =>
    rcases apply_generateEnds_cases s index outcome with ⟨request, hp, heq⟩ | heq
    · rw [heq]
      obtain ⟨ha, hb, hc⟩ := h
      have hreq := hc request (List.getElem?_mem hp)
      cases outcome with
      | resolved data =>
        refine ⟨?_, ?_, ?_⟩
        · intro result hr
          have hdata : data = some result := hr
          exact ⟨request, by simp [hdata]⟩
        · intro p hpmem
          have hmem : p ∈ s.succeeded ++ [(request, data)] := hpmem
          rcases List.mem_append.1 hmem with hold | hnew
          · exact ⟨(hb p hold).1, List.mem_append_left _ (hb p hold).2⟩
          · simp only [List.mem_singleton] at hnew
            subst hnew
            exact ⟨hreq.1, List.mem_append_left _ hreq.2⟩
        · intro r hr
          have := hc r (List.mem_of_mem_eraseIdx hr)
          exact ⟨this.1, List.mem_append_left _ this.2⟩
      | rejected error =>
        refine ⟨ha, ?_, ?_⟩
        · intro p hpmem
          exact ⟨(hb p hpmem).1, List.mem_append_left _ (hb p hpmem).2⟩
        · intro r hr
          have := hc r (List.mem_of_mem_eraseIdx hr)
          exact ⟨this.1, List.mem_append_left _ this.2⟩
    · rw [heq]
      exact h

theorem foldl_historyOk (events : List AppEvent) (s : Session) (h : s.HistoryOk) :
    (events.foldl AppEvent.apply s).HistoryOk := by
  induction events generalizing s with
  | nil => exact h
  | cons e es ih => exact ih _ (AppEvent.apply_historyOk s e h)

theorem runSession_historyOk (events : List AppEvent) : (runSession events).HistoryOk := by
  apply foldl_historyOk
  refine ⟨?_, ?_, ?_⟩
  · intro result hr
    have hnone : initialSession.app.generatedResult = none := rfl
    rw [hnone] at hr
    exact absurd hr (by simp)
  · intro p hp
    exact absurd hp (List.not_mem_nil _)
  · intro request hreq
    exact absurd hreq (List.not_mem_nil _)

/-- C17, as stated, fails: after a generation for the name `A` has succeeded, the name
is edited to `B`; Download is still offered, no generate request was ever sent for
`B`, the stored result names `A`, and a click on Download asks for the archive of `B`. -/
theorem download_offered_for_name_never_generated :
    downloadOffered (runSession
      [AppEvent.change SpecField.name ['A'], AppEvent.clickGenerate,
       AppEvent.generateEnds 0 (Outcome.resolved (some
         { language_name := ['A'], language_type := "interpreted".toList,
           files_generated := ["A/lexer.py".toList] })),
       AppEvent.change SpecField.name ['B']]).app = true ∧
    (runSession
      [AppEvent.change SpecField.name ['A'], AppEvent.clickGenerate,
       AppEvent.generateEnds 0 (Outcome.resolved (some
         { language_name := ['A'], language_type := "interpreted".toList,
           files_generated := ["A/lexer.py".toList] })),
       AppEvent.change SpecField.name ['B']]).app.languageSpec.name = ['B'] ∧
    (apiCalls (runSession
      [AppEvent.change SpecField.name ['A'], AppEvent.clickGenerate,
       AppEvent.generateEnds 0 (Outcome.resolved (some
         { language_name := ['A'], language_type := "interpreted".toList,
           files_generated := ["A/lexer.py".toList] })),
       AppEvent.change SpecField.name ['B']]).log) =
      [api.generateLanguage (generateRequest (handleChange initialLanguageSpec
        SpecField.name ['A']))] ∧
    (runSession
      [AppEvent.change SpecField.name ['A'], AppEvent.clickGenerate,
       AppEvent.generateEnds 0 (Outcome.resolved (some
         { language_name := ['A'], language_type := "interpreted".toList,
           files_generated := ["A/lexer.py".toList] })),
       AppEvent.change SpecField.name ['B']]).app.generatedResult.map
        GenerationResult.language_name = some ['A'] ∧
    (apiCalls (runSession
      [AppEvent.change SpecField.name ['A'], AppEvent.clickGenerate,
       AppEvent.generateEnds 0 (Outcome.resolved (some
         { language_name := ['A'], language_type := "interpreted".toList,
           files_generated := ["A/lexer.py".toList] })),
       AppEvent.change SpecField.name ['B'], AppEvent.clickDownload]).log).getLast? =
      some (api.downloadLanguage ['B']) := by
  decide

/-- C17, amended: in every session in which Download is offered, the stored
`generatedResult` is the data of a generate request that resolved earlier in the
session, sent by a recorded call of `api.generateLanguage` for a specification with a
non-empty name; the name `handleDownload` uses is the current one, which may have been
edited since. -/
theorem runSession_download_offered_after_success (events : List AppEvent)
    (hoffered : downloadOffered (runSession events).app = true) :
    ∃ request result,
      (runSession events).app.generatedResult = some result ∧
      (request, some result) ∈ (runSession events).succeeded ∧
      request.specification.name ≠ [] ∧
      Effect.call (api.generateLanguage request) ∈ (runSession events).log := by
  obtain ⟨ha, hb, _⟩ := runSession_historyOk events
  unfold downloadOffered at hoffered
  obtain ⟨result, hresult⟩ := Option.isSome_iff_exists.1 hoffered
  obtain ⟨request, hrequest⟩ := ha result hresult
  exact ⟨request, result, hresult, hrequest, (hb _ hrequest).1, (hb _ hrequest).2⟩

/-- The session in which `Mini` was generated with success. -/
theorem runSession_download_offered_after_success_witness :
    downloadOffered (runSession (miniEvents ++
      [AppEvent.clickGenerate,
       AppEvent.generateEnds 0 (Outcome.resolved (some
         { language_name := "Mini".toList, language_type := "interpreted".toList,
           files_generated := ["Mini/lexer.py".toList] }))])).app = true ∧
    ∃ request result,
      (runSession (miniEvents ++
        [AppEvent.clickGenerate,
         AppEvent.generateEnds 0 (Outcome.resolved (some
           { language_name := "Mini".toList, language_type := "interpreted".toList,
             files_generated := ["Mini/lexer.py".toList] }))])).app.generatedResult
        = some result ∧
      (request, some result) ∈ (runSession (miniEvents ++
        [AppEvent.clickGenerate,
         AppEvent.generateEnds 0 (Outcome.resolved (some
           { language_name := "Mini".toList, language_type := "interpreted".toList,
             files_generated := ["Mini/lexer.py".toList] }))])).succeeded ∧
      request.specification.name ≠ [] ∧
      Effect.call (api.generateLanguage request) ∈ (runSession (miniEvents ++
        [AppEvent.clickGenerate,
         AppEvent.generateEnds 0 (Outcome.resolved (some
           { language_name := "Mini".toList, language_type := "interpreted".toList,
             files_generated := ["Mini/lexer.py".toList] }))])).log :=
  ⟨by decide, runSession_download_offered_after_success _ (by decide)⟩

/-! ## Download: the path asked for and the name of the saved file -/

/-- C18: for every language name, `handleDownload` asks for the archive with a `get`
of the path `/api/download/` followed by the name, and, when the call resolves, saves
the data received under the name followed by `.zip`. -/
theorem handleDownload_path_and_file_name (languageSpec : LanguageSpec) (data : Blob) :
    handleDownloadStart languageSpec =
      [Effect.call (api.downloadLanguage languageSpec.name)] ∧
    (api.downloadLanguage languageSpec.name).method = HttpMethod.get ∧
    (api.downloadLanguage languageSpec.name).path =
      "/api/download/".toList ++ languageSpec.name ∧
    handleDownloadFinish languageSpec (Outcome.resolved data) =
      [Effect.saveFile (languageSpec.name ++ ".zip".toList) data] :=
  ⟨rfl, rfl, rfl, rfl⟩

/-! ## The initial specification -/

/-- C19: the specification `App` starts with has the four data types `integer`,
`float`, `string`, `boolean`, the version `1.0.0`, the language type `interpreted`, an
empty name, and six empty collections. -/
theorem initialLanguageSpec_defaults :
    initialSession.app.languageSpec = initialLanguageSpec ∧
    initialLanguageSpec.data_types =
      ["integer".toList, "float".toList, "string".toList, "boolean".toList] ∧
    initialLanguageSpec.data_types.Nodup ∧
    initialLanguageSpec.data_types.length = 4 ∧
    initialLanguageSpec.version = "1.0.0".toList ∧
    initialLanguageSpec.language_type = "interpreted".toList ∧
    initialLanguageSpec.name = [] ∧
    initialLanguageSpec.grammar_rules = [] ∧
    initialLanguageSpec.syntax_rules = [] ∧
    initialLanguageSpec.semantic_actions = [] ∧
    initialLanguageSpec.keywords = [] ∧
    initialLanguageSpec.operators = [] ∧
    initialLanguageSpec.builtin_functions = [] := by
  decide

/-! ## Built-in functions: name and description are required -/

theorem addFunction_accepted (builtinFunctions : List BuiltinFunction)
    (newFunction : BuiltinFunction) (hname : newFunction.name ≠ [])
    (hdescription : newFunction.description ≠ []) :
    addFunction builtinFunctions newFunction =
      (some (builtinFunctions ++ [newFunction]), emptyFunction) := by
  simp [addFunction, (truthy_iff _).2 hname, (truthy_iff _).2 hdescription]

theorem addFunction_refused (builtinFunctions : List BuiltinFunction)
    (newFunction : BuiltinFunction)
    (hempty : newFunction.name = [] ∨ newFunction.description = []) :
    addFunction builtinFunctions newFunction = (none, newFunction) := by
  rcases hempty with h | h <;> simp [addFunction, truthy, h]

theorem BuiltinOp.apply_required (builtinFunctions : List BuiltinFunction) (op : BuiltinOp)
    (hall : ∀ f ∈ builtinFunctions, f.name ≠ [] ∧ f.description ≠ []) :
    ∀ f ∈ BuiltinOp.apply builtinFunctions op, f.name ≠ [] ∧ f.description ≠ [] := by
  cases op with
  | add newFunction =>
    intro f hf
    simp only [BuiltinOp.apply] at hf
    cases hadd : (addFunction builtinFunctions newFunction).1 with
    | none =>
      rw [hadd] at hf
      exact hall f hf
    | some ys =>
      rw [hadd] at hf
      obtain ⟨htr, rfl⟩ := addFunction_some builtinFunctions ys newFunction hadd
      simp only [Option.getD_some, List.mem_append, List.mem_singleton] at hf
      rcases hf with hf | hf
      · exact hall f hf
      · subst hf
        exact ⟨(truthy_iff _).1 htr.1, (truthy_iff _).1 htr.2⟩
  | remove index =>
    intro f hf
    exact hall f (removeByIndex_subset builtinFunctions index f hf)

theorem foldl_builtin_required (ops : List BuiltinOp) (builtinFunctions : List BuiltinFunction)
    (hall : ∀ f ∈ builtinFunctions, f.name ≠ [] ∧ f.description ≠ []) :
    ∀ f ∈ ops.foldl BuiltinOp.apply builtinFunctions, f.name ≠ [] ∧ f.description ≠ [] := by
  induction ops generalizing builtinFunctions with
  | nil => exact hall
  | cons op ops ih => exact ih _ (BuiltinOp.apply_required builtinFunctions op hall)

/-- C20: `addFunction` passes the collection with the draft appended to `onChange`,
and resets the draft, exactly when the `name` and the `description` of the draft are
both non-empty; when either is empty it calls no `onChange` and keeps the draft.  So
every built-in function of a collection reached from the empty one by `addFunction` and
removals by index has a non-empty `name` and a non-empty `description`. -/
theorem addFunction_iff_name_and_description (builtinFunctions : List BuiltinFunction)
    (newFunction : BuiltinFunction) :
    ((addFunction builtinFunctions newFunction).1 = some (builtinFunctions ++ [newFunction]) ↔
      (newFunction.name ≠ [] ∧ newFunction.description ≠ [])) ∧
    (newFunction.name ≠ [] ∧ newFunction.description ≠ [] →
      addFunction builtinFunctions newFunction =
        (some (builtinFunctions ++ [newFunction]), emptyFunction)) ∧
    (newFunction.name = [] ∨ newFunction.description = [] →
      addFunction builtinFunctions newFunction = (none, newFunction)) ∧
    (∀ (ops : List BuiltinOp), ∀ f ∈ runBuiltinOps ops,
      f.name ≠ [] ∧ f.description ≠ []) := by
  refine ⟨⟨fun h => ?_, fun h => ?_⟩,
    fun h => addFunction_accepted _ _ h.1 h.2,
    fun h => addFunction_refused _ _ h,
    fun ops => foldl_builtin_required ops [] (by simp)⟩
  · obtain ⟨htr, _⟩ := addFunction_some _ _ _ h
    exact ⟨(truthy_iff _).1 htr.1, (truthy_iff _).1 htr.2⟩
  · rw [addFunction_accepted _ _ h.1 h.2]

/-- The draft `sqrt` with a description is appended; the same draft without its
description is refused and kept. -/
theorem addFunction_iff_name_and_description_witness :
    addFunction []
        { name := "sqrt".toList, parameters := [{ name := ['x'], type := "float".toList }],
          return_type := "float".toList, implementation := [],
          description := "square root".toList } =
      (some ([] ++
        [{ name := "sqrt".toList, parameters := [{ name := ['x'], type := "float".toList }],
           return_type := "float".toList, implementation := [],
           description := "square root".toList }]), emptyFunction) ∧
    addFunction []
        { name := "sqrt".toList, parameters := [], return_type := "float".toList,
          implementation := [], description := [] } =
      (none,
        { name := "sqrt".toList, parameters := [], return_type := "float".toList,
          implementation := [], description := [] }) :=
  ⟨(addFunction_iff_name_and_description []
      { name := "sqrt".toList, parameters := [{ name := ['x'], type := "float".toList }],
        return_type := "float".toList, implementation := [],
        description := "square root".toList }).2.1 (by decide),
   (addFunction_iff_name_and_description []
      { name := "sqrt".toList, parameters := [], return_type := "float".toList,
        implementation := [], description := [] }).2.2.1 (by decide)⟩

/-! ## Semantic actions: rule name and action code are required -/

theorem addAction_accepted (semanticActions : List SemanticAction)
    (newAction : SemanticAction) (hname : newAction.rule_name ≠ [])
    (hcode : newAction.action_code ≠ []) :
    addAction semanticActions newAction =
      (some (semanticActions ++ [newAction]), emptyAction) := by
  simp [addAction, (truthy_iff _).2 hname, (truthy_iff _).2 hcode]

theorem addAction_refused (semanticActions : List SemanticAction)
    (newAction : SemanticAction)
    (hempty : newAction.rule_name = [] ∨ newAction.action_code = []) :
    addAction semanticActions newAction = (none, newAction) := by
  rcases hempty with h | h <;> simp [addAction, truthy, h]

theorem ActionOp.apply_action_required (semanticActions : List SemanticAction) (op : ActionOp)
    (hall : ∀ a ∈ semanticActions, a.rule_name ≠ [] ∧ a.action_code ≠ []) :
    ∀ a ∈ ActionOp.apply semanticActions op, a.rule_name ≠ [] ∧ a.action_code ≠ [] := by
  cases op with
  | add newAction =>
    intro a ha
    simp only [ActionOp.apply] at ha
    cases hadd : (addAction semanticActions newAction).1 with
    | none =>
      rw [hadd] at ha
      exact hall a ha
    | some ys =>
      rw [hadd] at ha
      obtain ⟨htr, rfl⟩ := addAction_some semanticActions ys newAction hadd
      simp only [Option.getD_some, List.mem_append, List.mem_singleton] at ha
      rcases ha with ha | ha
      · exact hall a ha
      · subst ha
        exact ⟨(truthy_iff _).1 htr.1, (truthy_iff _).1 htr.2⟩
  | remove index =>
    intro a ha
    exact hall a (removeByIndex_subset semanticActions index a ha)

theorem foldl_action_required (ops : List ActionOp) (semanticActions : List SemanticAction)
    (hall : ∀ a ∈ semanticActions, a.rule_name ≠ [] ∧ a.action_code ≠ []) :
    ∀ a ∈ ops.foldl ActionOp.apply semanticActions,
      a.rule_name ≠ [] ∧ a.action_code ≠ [] := by
  induction ops generalizing semanticActions with
  | nil => exact hall
  | cons op ops ih => exact ih _ (ActionOp.apply_action_required semanticActions op hall)

/-- C21: `addAction` passes the collection with the draft appended to `onChange`
exactly when the `rule_name` and the `action_code` of the draft are both non-empty;
when either is empty it calls no `onChange`, so the collection stays as it is.  So every
semantic action of a collection reached from the empty one by `addAction` and removals
by index has a non-empty `rule_name` and a non-empty `action_code`. -/
theorem addAction_iff_rule_name_and_action_code (semanticActions : List SemanticAction)
    (newAction : SemanticAction) :
    ((addAction semanticActions newAction).1 = some (semanticActions ++ [newAction]) ↔
      (newAction.rule_name ≠ [] ∧ newAction.action_code ≠ [])) ∧
    (newAction.rule_name = [] ∨ newAction.action_code = [] →
      (addAction semanticActions newAction).1 = none ∧
      ActionOp.apply semanticActions (ActionOp.add newAction) = semanticActions) ∧
    (∀ (ops : List ActionOp), ∀ a ∈ runActionOps ops,
      a.rule_name ≠ [] ∧ a.action_code ≠ []) := by
  refine ⟨⟨fun h => ?_, fun h => ?_⟩, fun h => ?_,
    fun ops => foldl_action_required ops [] (by simp)⟩
  · obtain ⟨htr, _⟩ := addAction_some _ _ _ h
    exact ⟨(truthy_iff _).1 htr.1, (truthy_iff _).1 htr.2⟩
  · rw [addAction_accepted _ _ h.1 h.2]
  · have hr := addAction_refused semanticActions newAction h
    refine ⟨by rw [hr], ?_⟩
    simp only [ActionOp.apply, hr, Option.getD_none]

/-- The draft for `binary_operation` without its code is refused. -/
theorem addAction_iff_rule_name_and_action_code_witness :
    (addAction []
        { rule_name := "binary_operation".toList, action_type := "evaluate".toList,
          action_code := [], returns := none }).1 = none ∧
    ActionOp.apply []
        (ActionOp.add
          { rule_name := "binary_operation".toList, action_type := "evaluate".toList,
            action_code := [], returns := none }) = [] :=
  (addAction_iff_rule_name_and_action_code []
      { rule_name := "binary_operation".toList, action_type := "evaluate".toList,
        action_code := [], returns := none }).2.1 (by decide)

/-! ## Grammar rules: name and pattern are required -/

theorem addGrammarRule_refused (grammarRules : List GrammarRule) (nodes : List FlowNode)
    (editingRule : EditingRule) (now : Nat) (rand1 rand2 : Coord)
    (hempty : editingRule.name = [] ∨ editingRule.pattern = []) :
    addGrammarRule grammarRules nodes editingRule now rand1 rand2 =
      { changed := none, nodes := nodes, editingRule := editingRule } := by
  rcases hempty with h | h <;> simp [addGrammarRule, truthy, h]

theorem GrammarOp.apply_rule_required (st : GrammarState) (op : GrammarOp)
    (hall : ∀ r ∈ st.grammarRules, r.name ≠ [] ∧ r.pattern ≠ []) :
    ∀ r ∈ (GrammarOp.apply st op).grammarRules, r.name ≠ [] ∧ r.pattern ≠ [] := by
  cases op with
  | add editingRule now rand1 rand2 =>
    intro r hr
    simp only [GrammarOp.apply] at hr
    cases hadd : (addGrammarRule st.grammarRules st.nodes editingRule now rand1 rand2).changed with
    | none =>
      rw [hadd] at hr
      exact hall r hr
    | some ys =>
      rw [hadd] at hr
      obtain ⟨htr, rule, hname, hpattern, _, rfl⟩ :=
        addGrammarRule_some st.grammarRules ys st.nodes editingRule now rand1 rand2 hadd
      simp only [Option.getD_some, List.mem_append, List.mem_singleton] at hr
      rcases hr with hr | hr
      · exact hall r hr
      · subst hr
        rw [hname, hpattern]
        exact ⟨(truthy_iff _).1 htr.1, (truthy_iff _).1 htr.2⟩
  | delete ruleId =>
    intro r hr
    simp only [GrammarOp.apply, deleteRule, Option.getD_some] at hr
    exact hall r (List.mem_filter.1 hr).1

theorem foldl_grammar_required (ops : List GrammarOp) (st : GrammarState)
    (hall : ∀ r ∈ st.grammarRules, r.name ≠ [] ∧ r.pattern ≠ []) :
    ∀ r ∈ (ops.foldl GrammarOp.apply st).grammarRules, r.name ≠ [] ∧ r.pattern ≠ [] := by
  induction ops generalizing st with
  | nil => exact hall
  | cons op ops ih => exact ih _ (GrammarOp.apply_rule_required st op hall)

/-- C22: every rule of a grammar rule list reached from the empty list by
`addGrammarRule` and `deleteRule` has a non-empty `name` and a non-empty `pattern`; and
`addGrammarRule` with an empty name or an empty pattern calls no `onChange`, so the list
(and the canvas) stay as they are. -/
theorem runGrammarOps_name_and_pattern :
    (∀ (ops : List GrammarOp), ∀ r ∈ (runGrammarOps ops).grammarRules,
      r.name ≠ [] ∧ r.pattern ≠ []) ∧
    (∀ (st : GrammarState) (editingRule : EditingRule) (now : Nat) (rand1 rand2 : Coord),
      editingRule.name = [] ∨ editingRule.pattern = [] →
      (addGrammarRule st.grammarRules st.nodes editingRule now rand1 rand2).changed = none ∧
      GrammarOp.apply st (GrammarOp.add editingRule now rand1 rand2) = st) := by
  refine ⟨fun ops => foldl_grammar_required ops _ (by simp), ?_⟩
  intro st editingRule now rand1 rand2 hempty
  have hr := addGrammarRule_refused st.grammarRules st.nodes editingRule now rand1 rand2 hempty
  refine ⟨by rw [hr], ?_⟩
  simp only [GrammarOp.apply, hr, Option.getD_none]

/-- A draft with a name and no pattern, at the clock reading 9, changes nothing. -/
theorem runGrammarOps_name_and_pattern_witness :
    (addGrammarRule [] [] { name := ['e'], pattern := [], description := [] } 9 0 0).changed
      = none ∧
    GrammarOp.apply { grammarRules := [], nodes := [] }
        (GrammarOp.add { name := ['e'], pattern := [], description := [] } 9 0 0) =
      { grammarRules := [], nodes := [] } :=
  runGrammarOps_name_and_pattern.2 { grammarRules := [], nodes := [] }
    { name := ['e'], pattern := [], description := [] } 9 0 0 (by decide)

/-! ## Removal by position -/

/-- C24: removal by position at an index inside the list gives the elements before
the position followed by the elements after it, a list one shorter; at an index outside
the list it gives the list itself. -/
theorem removeByIndex_in_and_out_of_range {α : Type} (xs : List α) (index : Nat) :
    (index < xs.length →
      removeByIndex xs index = xs.take index ++ xs.drop (index + 1) ∧
      (removeByIndex xs index).length = xs.length - 1) ∧
    (xs.length ≤ index → removeByIndex xs index = xs) := by
  rw [removeByIndex_eq_eraseIdx]
  refine ⟨fun h => ⟨List.eraseIdx_eq_take_drop_succ xs index, ?_⟩,
    fun h => List.eraseIdx_of_length_le h⟩
  rw [List.length_eraseIdx, if_pos h]

/-- Removing at position 1 of a list of three parameters, and at position 5. -/
theorem removeByIndex_in_and_out_of_range_witness :
    (removeByIndex
      [({ name := ['a'], type := "integer".toList } : Parameter),
       { name := ['b'], type := "float".toList },
       { name := ['c'], type := "string".toList }] 1 =
      [({ name := ['a'], type := "integer".toList } : Parameter),
       { name := ['b'], type := "float".toList },
       { name := ['c'], type := "string".toList }].take 1 ++
      [({ name := ['a'], type := "integer".toList } : Parameter),
       { name := ['b'], type := "float".toList },
       { name := ['c'], type := "string".toList }].drop (1 + 1) ∧
     (removeByIndex
      [({ name := ['a'], type := "integer".toList } : Parameter),
       { name := ['b'], type := "float".toList },
       { name := ['c'], type := "string".toList }] 1).length = 3 - 1) ∧
    removeByIndex
      [({ name := ['a'], type := "integer".toList } : Parameter),
       { name := ['b'], type := "float".toList },
       { name := ['c'], type := "string".toList }] 5 =
      [({ name := ['a'], type := "integer".toList } : Parameter),
       { name := ['b'], type := "float".toList },
       { name := ['c'], type := "string".toList }] :=
  ⟨(removeByIndex_in_and_out_of_range _ 1).1 (by decide),
   (removeByIndex_in_and_out_of_range _ 5).2 (by decide)⟩

/-! ## Language configuration: editing a comment marker -/

/-- C26: `handleCommentChange spec field value` passes to `onChange` a specification
whose comment marker `field` is `value`, whose other two markers are those of `spec`,
and whose every field other than `comment_syntax` is that of `spec`; the value may be
the empty string, for each marker on its own. -/
theorem handleCommentChange_sets_marker_keeps_others (spec : LanguageSpec)
    (field : CommentField) (value : JSString) :
    CommentSyntax.get (LanguageSpec.comment_syntax (handleCommentChange spec field value))
      field = value ∧
    (∀ other : CommentField, other ≠ field →
      CommentSyntax.get (LanguageSpec.comment_syntax (handleCommentChange spec field value))
        other = CommentSyntax.get (LanguageSpec.comment_syntax spec) other) ∧
    (∀ f : SpecField, f ≠ SpecField.comment_syntax →
      (handleCommentChange spec field value).get f = spec.get f) ∧
    CommentSyntax.get (LanguageSpec.comment_syntax (handleCommentChange spec field []))
      field = [] := by
  refine ⟨?_, ?_, ?_, ?_⟩
  · cases field <;> rfl
  · intro other hne
    cases field <;> cases other <;>
      first
        | rfl
        | exact absurd rfl hne
  · intro f hne
    cases f <;>
      first
        | rfl
        | exact absurd rfl hne
  · cases field <;> rfl

/-! ## Generate: the request sent and the result stored -/

theorem run_handleGenerateFinish_resolved (st : AppState) (data : Option GenerationResult) :
    (st.run (handleGenerateFinish (Outcome.resolved data))).generatedResult = data := rfl

/-- C27: for the specification current when `handleGenerate` is invoked, the one call
of the client the handler makes is `api.generateLanguage` (a `post` to `/api/generate`)
with the request whose `specification` is that specification and whose
`include_examples` and `include_documentation` are true; and when a generate request in
flight resolves, `generatedResult` becomes the data of the response. -/
theorem handleGenerate_request_and_result (s : Session) (index : Nat)
    (request : GenerateRequest) (data : Option GenerationResult)
    (hflight : s.pending[index]? = some (Pending.generate request)) :
    apiCalls (handleGenerateStart s.app.languageSpec) =
      [api.generateLanguage (generateRequest s.app.languageSpec)] ∧
    (api.generateLanguage (generateRequest s.app.languageSpec)).method = HttpMethod.post ∧
    (api.generateLanguage (generateRequest s.app.languageSpec)).path = "/api/generate".toList ∧
    (api.generateLanguage (generateRequest s.app.languageSpec)).body =
      Body.request
        { specification := s.app.languageSpec, include_examples := true,
          include_documentation := true } ∧
    (generateDisabled s.app = false →
      (AppEvent.apply s AppEvent.clickGenerate).pending =
        s.pending ++ [Pending.generate (generateRequest s.app.languageSpec)]) ∧
    (AppEvent.apply s (AppEvent.generateEnds index (Outcome.resolved data))).app.generatedResult
      = data := by
  refine ⟨rfl, rfl, rfl, rfl, fun h => (clickGenerate_apply_enabled s h).2.1, ?_⟩
  rcases apply_generateEnds_cases s index (Outcome.resolved data) with ⟨r, _, heq⟩ | heq
  · rw [heq]
    exact run_handleGenerateFinish_resolved _ _
  · exfalso
    have : AppEvent.apply s (AppEvent.generateEnds index (Outcome.resolved data)) ≠ s := by
      intro hs
      have hlog := congrArg Session.log hs
      simp only [AppEvent.apply, hflight] at hlog
      have hlen := congrArg List.length hlog
      simp [Session.perform, handleGenerateFinish] at hlen
    exact this heq

/-- The request for `Mini` in flight resolves with a result naming `Mini`. -/
theorem handleGenerate_request_and_result_witness :
    (runSession (miniEvents ++ [AppEvent.clickGenerate])).pending[0]? =
      some (Pending.generate (generateRequest miniSpec)) ∧
    (AppEvent.apply (runSession (miniEvents ++ [AppEvent.clickGenerate]))
      (AppEvent.generateEnds 0 (Outcome.resolved (some
        { language_name := "Mini".toList, language_type := "interpreted".toList,
          files_generated := ["Mini/lexer.py".toList] })))).app.generatedResult =
      some
        { language_name := "Mini".toList, language_type := "interpreted".toList,
          files_generated := ["Mini/lexer.py".toList] } :=
  ⟨by decide,
    (handleGenerate_request_and_result (runSession (miniEvents ++ [AppEvent.clickGenerate])) 0
      (generateRequest miniSpec)
      (some { language_name := "Mini".toList, language_type := "interpreted".toList,
              files_generated := ["Mini/lexer.py".toList] })
      (by decide)).2.2.2.2.2⟩

/-! ## What a stored grammar rule holds -/

/-- C23, as stated, fails: the rule `addGrammarRule` passes to `onChange` holds the
canvas coordinates.  With the random readings 1/2 and 1/4 its `x` is 200 and its `y` is
100, and the same form at the same clock reading with other random readings gives
another rule. -/
theorem addGrammarRule_stores_coordinates :
    (addGrammarRule [] [] { name := ['e'], pattern := ['t'], description := [] } 5
        (1 / 2) (1 / 4)).changed =
      some [{ name := ['e'], pattern := ['t'], description := [], node_id := nodeIdAt 5,
              x := 200, y := 100 }] ∧
    (addGrammarRule [] [] { name := ['e'], pattern := ['t'], description := [] } 5
        (1 / 2) (1 / 4)).changed ≠
      (addGrammarRule [] [] { name := ['e'], pattern := ['t'], description := [] } 5
        0 0).changed := by
  constructor
  · simp [addGrammarRule, truthy]
    norm_num
  · simp [addGrammarRule, truthy]

/-- C23, amended: the rule an accepted `addGrammarRule` appends consists of the `name`,
`pattern` and `description` of the editing form, the assigned `node_id`, and the two
canvas coordinates `x` and `y`, each a random reading times 400; it is a function of
the form, the node id and the two random readings. -/
theorem addGrammarRule_appended_rule (grammarRules : List GrammarRule)
    (nodes : List FlowNode) (editingRule : EditingRule) (now : Nat) (rand1 rand2 : Coord)
    (hname : editingRule.name ≠ []) (hpattern : editingRule.pattern ≠ []) :
    (addGrammarRule grammarRules nodes editingRule now rand1 rand2).changed =
      some (grammarRules ++
        [{ name := editingRule.name
           pattern := editingRule.pattern
           description := editingRule.description
           node_id := nodeIdAt now
           x := rand1 * 400
           y := rand2 * 400 }]) := by
  simp [addGrammarRule, (truthy_iff _).2 hname, (truthy_iff _).2 hpattern]

/-- The form `e`, `t` at the clock reading 5 with the random readings 1/2 and 1/4. -/
theorem addGrammarRule_appended_rule_witness :
    (['e'] ≠ []) ∧ (['t'] ≠ []) ∧
    (addGrammarRule [] [] { name := ['e'], pattern := ['t'], description := [] } 5
        (1 / 2) (1 / 4)).changed =
      some ([] ++
        [{ name := ['e'], pattern := ['t'], description := [], node_id := nodeIdAt 5,
           x := 1 / 2 * 400, y := 1 / 4 * 400 }]) :=
  ⟨by decide, by decide,
    addGrammarRule_appended_rule [] [] { name := ['e'], pattern := ['t'], description := [] }
      5 (1 / 2) (1 / 4) (by decide) (by decide)⟩

/-! ## Deleting a grammar rule by id: what is removed -/

theorem countP_node_id_eq_one (grammarRules : List GrammarRule) (ruleId : JSString)
    (hdistinct : (grammarRules.map GrammarRule.node_id).Nodup)
    (hmem : ∃ r ∈ grammarRules, r.node_id = ruleId) :
    grammarRules.countP (fun r => decide (r.node_id = ruleId)) = 1 := by
  induction grammarRules with
  | nil =>
    obtain ⟨r, hr, _⟩ := hmem
    exact absurd hr (List.not_mem_nil _)
  | cons r rs ih =>
    rw [List.map_cons, List.nodup_cons] at hdistinct
    by_cases h : r.node_id = ruleId
    · have hzero : rs.countP (fun r => decide (r.node_id = ruleId)) = 0 := by
        rw [List.countP_eq_zero]
        intro x hx
        simp only [decide_eq_true_eq]
        intro hxid
        apply hdistinct.1
        rw [h, ← hxid]
        exact List.mem_map_of_mem _ hx
      simp only [List.countP_cons, h, decide_True, if_true]
      omega
    · obtain ⟨x, hx, hxid⟩ := hmem
      have hxrs : x ∈ rs := by
        rcases List.mem_cons.1 hx with hx | hx
        · subst hx
          exact absurd hxid h
        · exact hx
      have := ih hdistinct.2 ⟨x, hxrs, hxid⟩
      simp only [List.countP_cons, h, decide_False, Bool.false_eq_true, if_false]
      omega

theorem length_filter_ne_add_countP (grammarRules : List GrammarRule) (ruleId : JSString) :
    (grammarRules.filter (fun r => r.node_id != ruleId)).length +
        grammarRules.countP (fun r => decide (r.node_id = ruleId)) =
      grammarRules.length := by
  induction grammarRules with
  | nil => rfl
  | cons r rs ih =>
    by_cases h : r.node_id = ruleId
    · simp only [List.filter_cons, List.countP_cons, h, bne_self_eq_false, decide_True,
        if_true, List.length_cons, Bool.false_eq_true, if_false]
      simp only [h] at ih
      omega
    · have hb : (r.node_id != ruleId) = true := by simpa using h
      simp only [List.filter_cons, List.countP_cons, hb, if_true, List.length_cons, h,
        decide_False, Bool.false_eq_true, if_false]
      omega

/-- C25, as stated, fails: two accepted adds at the clock reading 5 leave two rules
with the node id `node-5`, and `deleteRule` for `node-5` removes both, so the result has
two rules fewer, not one. -/
theorem deleteRule_removes_both_duplicates :
    (runGrammarOps
      [GrammarOp.add { name := ['e'], pattern := ['t'], description := [] } 5 0 0,
       GrammarOp.add { name := ['t'], pattern := ['f'], description := [] } 5 0 0]
      ).grammarRules.length = 2 ∧
    (deleteRule
      (runGrammarOps
        [GrammarOp.add { name := ['e'], pattern := ['t'], description := [] } 5 0 0,
         GrammarOp.add { name := ['t'], pattern := ['f'], description := [] } 5 0 0]
        ).grammarRules [] emptyEditingRule (nodeIdAt 5)).changed = some [] := by
  decide

/-- C25, amended: `deleteRule` passes to `onChange` the rules whose `node_id` differs
from the id, each with its value and in their order; the result is shorter than the
input by the number of rules that have the id, which is one when the node ids of the
input are pairwise distinct and some rule has the id. -/
theorem deleteRule_removes_rules_with_id (grammarRules : List GrammarRule)
    (nodes : List FlowNode) (editingRule : EditingRule) (ruleId : JSString) :
    ∃ result : List GrammarRule,
      (deleteRule grammarRules nodes editingRule ruleId).changed = some result ∧
      result = grammarRules.filter (fun r => decide (r.node_id ≠ ruleId)) ∧
      result.Sublist grammarRules ∧
      (∀ r, r ∈ result ↔ r ∈ grammarRules ∧ r.node_id ≠ ruleId) ∧
      result.length + grammarRules.countP (fun r => decide (r.node_id = ruleId)) =
        grammarRules.length ∧
      ((grammarRules.map GrammarRule.node_id).Nodup →
        (∃ r ∈ grammarRules, r.node_id = ruleId) →
        result.length + 1 = grammarRules.length) := by
  refine ⟨grammarRules.filter (fun r => r.node_id != ruleId), rfl, ?_,
    List.filter_sublist _, ?_, length_filter_ne_add_countP _ _, ?_⟩
  · apply List.filter_congr
    intro r _
    by_cases h : r.node_id = ruleId <;> simp [h]
  · intro r
    simp [List.mem_filter]
  · intro hdistinct hmem
    have h1 := length_filter_ne_add_countP grammarRules ruleId
    rw [countP_node_id_eq_one grammarRules ruleId hdistinct hmem] at h1
    exact h1

/-- Deleting `node-1` from the list holding the rules `node-1` and `node-2`. -/
theorem deleteRule_removes_rules_with_id_witness :
    ∃ result : List GrammarRule,
      (deleteRule
        [({ name := ['e'], pattern := ['t'], description := [],
            node_id := nodeIdAt 1, x := 0, y := 0 } : GrammarRule),
         { name := ['t'], pattern := ['f'], description := [],
           node_id := nodeIdAt 2, x := 0, y := 0 }]
        [] emptyEditingRule (nodeIdAt 1)).changed = some result ∧
      result.length + 1 = 2 := by
  obtain ⟨result, hchanged, _, _, _, _, hone⟩ :=
    deleteRule_removes_rules_with_id
      [({ name := ['e'], pattern := ['t'], description := [],
          node_id := nodeIdAt 1, x := 0, y := 0 } : GrammarRule),
       { name := ['t'], pattern := ['f'], description := [],
         node_id := nodeIdAt 2, x := 0, y := 0 }]
      [] emptyEditingRule (nodeIdAt 1)
  exact ⟨result, hchanged, hone (by decide) ⟨_, List.mem_cons_self _ _, rfl⟩⟩

end IlliterateWizard
